import Mathlib

/-!
# spii: `Function` (src/source/function.cpp)

A shallow embedding of the class `Function`, which represents an objective
function as a sum of terms over externally owned variable blocks, and assembles
its value, gradient and Hessian.

Conventions of the embedding.

* Scalars (`double`) are an arbitrary type `S` with the operations the code
  uses: `+`, `*`, the literals `0.0` and `1.0`.  Nothing is assumed about them
  unless a statement says so; `Double` below is a small model with a NaN.
* A `double*` is an address counted in `double` cells (`Key`); user memory is a
  function from addresses to scalars.
* `std::map` is an association list kept in key order, `std::set` a list kept
  in increasing order, `std::vector` a list.
* An Eigen object is its dimensions and its coefficient accessor; indices are
  not checked against the dimensions.  `resize` keeps the coefficients when the
  dimensions do not change and otherwise leaves them unspecified: the contents
  of newly allocated storage are an explicit argument (`Fresh`).
* A `throw` is a returned `Error`; where the state after the throw matters the
  state is returned next to it (`Outcome`).
* The wall-clock counters (`evaluate_time`, `copy_time`, ...) are left out.
-/

namespace Spii

/-! ## Eigen objects -/

/-- Dense vector `Eigen::VectorXd`: size and coefficients. -/
structure VectorXd (S : Type) where
  size : Nat
  coeff : Nat → S

/-- Dense matrix `Eigen::MatrixXd`: dimensions and coefficients. -/
structure MatrixXd (S : Type) where
  rows : Nat
  cols : Nat
  coeff : Nat → Nat → S

/-- Entry `Eigen::Triplet<double>(row, col, value)`. -/
structure Triplet (S : Type) where
  row : Nat
  col : Nat
  value : S

/-- Sparse matrix `Eigen::SparseMatrix<double>`, as far as this file drives it:
its dimensions and the triplet list it was last set from. -/
structure SparseMatrix (S : Type) where
  rows : Nat
  cols : Nat
  triplets : List (Triplet S)

/-- Contents of storage that Eigen allocates without initialising it. -/
structure Fresh (S : Type) where
  vector : Nat → S
  matrix : Nat → Nat → S

section Eigen

variable {S : Type}

instance [Zero S] : Inhabited (VectorXd S) := ⟨⟨0, fun _ => 0⟩⟩

instance [Zero S] : Inhabited (MatrixXd S) := ⟨⟨0, 0, fun _ _ => 0⟩⟩

/-- Member `v.resize(size)`: a no-op when the size is unchanged, otherwise the
coefficients are those of the new storage. -/
def VectorXd.resize (v : VectorXd S) (size : Nat) (fresh : Nat → S) : VectorXd S :=
  if v.size = size then v else ⟨size, fresh⟩

/-- Member `v.setConstant(c)`. -/
def VectorXd.setConstant (v : VectorXd S) (c : S) : VectorXd S :=
  ⟨v.size, fun _ => c⟩

/-- Statement `v[i] = s`. -/
def VectorXd.assign (v : VectorXd S) (i : Nat) (s : S) : VectorXd S :=
  ⟨v.size, fun k => if k = i then s else v.coeff k⟩

/-- Statement `v[i] += s`. -/
def VectorXd.add_at [Add S] (v : VectorXd S) (i : Nat) (s : S) : VectorXd S :=
  ⟨v.size, fun k => if k = i then v.coeff k + s else v.coeff k⟩

/-- Member `m.resize(rows, cols)`: a no-op when the dimensions are unchanged,
otherwise the coefficients are those of the new storage. -/
def MatrixXd.resize (m : MatrixXd S) (rows cols : Nat) (fresh : Nat → Nat → S) : MatrixXd S :=
  if m.rows = rows ∧ m.cols = cols then m else ⟨rows, cols, fresh⟩

/-- Statement `m *= s`: every coefficient is multiplied by `s`. -/
def MatrixXd.scale [Mul S] (m : MatrixXd S) (s : S) : MatrixXd S :=
  ⟨m.rows, m.cols, fun r c => m.coeff r c * s⟩

/-- Statement `m.coeffRef(i, j) += s`. -/
def MatrixXd.add_at [Add S] (m : MatrixXd S) (i j : Nat) (s : S) : MatrixXd S :=
  ⟨m.rows, m.cols, fun r c => if r = i ∧ c = j then m.coeff r c + s else m.coeff r c⟩

/-- Member `H.resize(rows, cols)` of a sparse matrix: the matrix is emptied. -/
def SparseMatrix.resize (_H : SparseMatrix S) (rows cols : Nat) : SparseMatrix S :=
  ⟨rows, cols, []⟩

/-- Member `H.setFromTriplets(begin, end)`: the dimensions are kept, and the
positions of the triplets are not checked against them. -/
def SparseMatrix.setFromTriplets (H : SparseMatrix S) (indices : List (Triplet S)) :
    SparseMatrix S :=
  ⟨H.rows, H.cols, indices⟩

/-- Coefficient of a sparse matrix set from triplets: the triplets at `(r, c)`
are summed, in the order in which they were emitted. -/
def SparseMatrix.coeff [Add S] [Zero S] (H : SparseMatrix S) (r c : Nat) : S :=
  ((H.triplets.filter fun t => t.row = r ∧ t.col = c).map fun t => t.value).foldl (· + ·) 0

end Eigen

/-! ## Containers -/

/-- Address of a variable block (`double*`). -/
abbrev Key := Nat

/-- Lookup `m.find(k)` in a `std::map`. -/
def map_find {α : Type} (m : List (Key × α)) (k : Key) : Option α :=
  match m with
  | [] => none
  | (k', v) :: rest => if k = k' then some v else map_find rest k

/-- Assignment `m[k] = v` in a `std::map`, which iterates in key order. -/
def map_insert {α : Type} (m : List (Key × α)) (k : Key) (v : α) : List (Key × α) :=
  match m with
  | [] => [(k, v)]
  | (k', v') :: rest =>
    if k < k' then (k, v) :: (k', v') :: rest
    else if k = k' then (k, v) :: rest
    else (k', v') :: map_insert rest k v

/-- Member `s.insert(a)` of a `std::set`. -/
def set_insert (s : List Nat) (a : Nat) : List Nat :=
  match s with
  | [] => [a]
  | b :: rest =>
    if a < b then a :: b :: rest
    else if a = b then b :: rest
    else b :: set_insert rest a

/-! ## Data model -/

/-- The exceptions thrown by `Function`. -/
inductive Error where
  /-- "Function::add_variable: dimension mismatch." -/
  | add_variable_dimension_mismatch
  /-- The `std::length_error` of `temp_space.resize` on a negative dimension. -/
  | length_error
  /-- "Function::add_term: incorrect number of arguments." -/
  | incorrect_number_of_arguments
  /-- "Function::add_term: unknown variable." -/
  | unknown_variable
  /-- "Function::add_term: variable dimension does not match term." -/
  | variable_dimension_does_not_match_term
  /-- "Function::global_index: Could not find variable" -/
  | could_not_find_variable
  deriving DecidableEq, Repr

/-- Modelled from the spec: the record `AddedVariable` (spii/function.h is not
among the sources), with the fields function.cpp uses: the `int dimension`, the
offset `global_index` into the global vector, and the scratch buffer
`temp_space`, a `std::vector<double>` of `dimension` scalars. -/
structure AddedVariable (S : Type) where
  dimension : Int
  global_index : Nat
  temp_space : List S

/-- Modelled from the spec: the interface `Term` (spii/term.h is not among the
sources).  A term has an arity `k ≥ 0`, a dimension per argument, a value-only
evaluation over `k` blocks of values, and an evaluation that also fills `k`
gradient blocks and a `k × k` grid of Hessian blocks.  A `const Term*` is the
address of the object together with these members.  The second evaluation
receives the current contents of its output buffers and returns their new
contents. -/
structure Term (S : Type) where
  addr : Nat
  number_of_variables : Nat
  variable_dimension : Nat → Nat
  evaluate : List (List S) → S
  evaluate_derivatives : List (List S) → List (VectorXd S) → List (List (MatrixXd S)) →
    S × List (VectorXd S) × List (List (MatrixXd S))

/-- Modelled from the spec: the record `AddedTerm` (spii/function.h is not among
the sources), with the fields function.cpp uses: the term, the keys of its
arguments, the pointers into the scratch space of its arguments, and its
private gradient and Hessian blocks.  A pointer into the `temp_space` of a
variable is the key of that variable. -/
structure AddedTerm (S : Type) where
  term : Term S
  user_variables : List Key
  temp_variables : List Key
  gradient : List (VectorXd S)
  hessian : List (List (MatrixXd S))

/-- Modelled from the spec: the values of the term-ownership policy
`term_deletion` (spii/function.h is not among the sources): the registry
deletes the registered terms on teardown, or treats them as caller-owned. -/
inductive TermDeletion where
  | DeleteTerms
  | DoNotDeleteTerms
  deriving DecidableEq, Repr

/-- Modelled from the spec: the data members of the class `Function`
(spii/function.h is not among the sources), as function.cpp uses them, without
the wall-clock counters. -/
structure Function (S : Type) where
  number_of_scalars : Nat
  term_deletion : TermDeletion
  number_of_hessian_elements : Nat
  /-- Member `variables` (the name is reserved in Lean). -/
  vars : List (Key × AddedVariable S)
  added_terms : List Nat
  terms : List (AddedTerm S)

/-- State and exception (if any) after a call that may throw. -/
structure Outcome (S : Type) where
  state : Function S
  error : Option Error

section Operations

variable {S : Type}

/-- Constructor `Function::Function()`. -/
def Function.init : Function S :=
  ⟨0, TermDeletion.DeleteTerms, 0, [], [], []⟩

/-- Destructor `Function::~Function()`: the addresses of the terms it deletes. -/
def Function.deleted_terms (f : Function S) : List Nat :=
  f.added_terms

/-- Method `Function::add_variable(double* variable, int dimension)`. -/
def Function.add_variable [Zero S] (f : Function S) (key : Key) (dimension : Int) :
    Outcome S :=
  match map_find f.vars key with
  | some var_info =>
    if var_info.dimension ≠ dimension then
      ⟨f, some Error.add_variable_dimension_mismatch⟩
    else
      ⟨f, none⟩
  | none =>
    if dimension < 0 then
      -- The map entry exists and its first two fields are set when
      -- temp_space.resize throws.
      ⟨{ f with vars :=
            map_insert f.vars key ⟨dimension, f.number_of_scalars, []⟩ },
        some Error.length_error⟩
    else
      ⟨{ f with
          vars := map_insert f.vars key
            ⟨dimension, f.number_of_scalars, List.replicate dimension.toNat 0⟩
          number_of_scalars := f.number_of_scalars + dimension.toNat },
        none⟩

/-- The validation loop of `add_term` over the argument positions `vars`. -/
def Function.add_term_check (f : Function S) (term : Term S) (arguments : List Key) :
    List Nat → Option Error
  | [] => none
  | var :: rest =>
    match map_find f.vars (arguments.getD var 0) with
    | none => some Error.unknown_variable
    | some var_info =>
      if var_info.dimension ≠ (term.variable_dimension var : Int) then
        some Error.variable_dimension_does_not_match_term
      else
        Function.add_term_check f term arguments rest

/-- Method `Function::add_term(const Term* term, const std::vector<double*>& arguments)`.
The local `storage_needed`, which is computed and never used, is left out. -/
def Function.add_term (f : Function S) (term : Term S) (arguments : List Key)
    (fresh : Fresh S) : Outcome S :=
  if term.number_of_variables ≠ arguments.length then
    ⟨f, some Error.incorrect_number_of_arguments⟩
  else
    match f.add_term_check term arguments (List.range term.number_of_variables) with
    | some e => ⟨f, some e⟩
    | none =>
      let vars := List.range term.number_of_variables
      let added : AddedTerm S :=
        { term := term
          user_variables := arguments
          temp_variables := vars.map fun var => arguments.getD var 0
          gradient := vars.map fun var => ⟨term.variable_dimension var, fresh.vector⟩
          hessian := vars.map fun var0 => vars.map fun var1 =>
            ⟨term.variable_dimension var0, term.variable_dimension var1, fresh.matrix⟩ }
      ⟨{ f with
          added_terms := set_insert f.added_terms term.addr
          terms := f.terms ++ [added] },
        none⟩

/-- Method `Function::global_index(double* variable)`. -/
def Function.global_index (f : Function S) (key : Key) : Except Error Nat :=
  match map_find f.vars key with
  | none => Except.error Error.could_not_find_variable
  | some var_info => Except.ok var_info.global_index

/-- The inner loop of `copy_global_to_local`: `temp_space[i] = x[global_index + i]`
for `i < dimension`. -/
def AddedVariable.load (var_info : AddedVariable S) (x : VectorXd S) : AddedVariable S :=
  let temp_space := (List.range var_info.dimension.toNat).foldl
    (fun temp_space i => temp_space.set i (x.coeff (var_info.global_index + i)))
    var_info.temp_space
  { var_info with temp_space := temp_space }

/-- Method `Function::copy_global_to_local(x)`. -/
def Function.copy_global_to_local (f : Function S) (x : VectorXd S) : Function S :=
  { f with vars := f.vars.map fun itr => (itr.1, itr.2.load x) }

/-- Method `Function::copy_user_to_global(x)`; `user` is the callers' memory. -/
def Function.copy_user_to_global (f : Function S) (user : Nat → S) (x : VectorXd S)
    (fresh : Fresh S) : VectorXd S :=
  f.vars.foldl
    (fun x itr =>
      (List.range itr.2.dimension.toNat).foldl
        (fun x i => x.assign (itr.2.global_index + i) (user (itr.1 + i))) x)
    (x.resize f.number_of_scalars fresh.vector)

/-- Method `Function::copy_global_to_user(x)`: the callers' memory afterwards. -/
def Function.copy_global_to_user (f : Function S) (x : VectorXd S) (user : Nat → S) :
    Nat → S :=
  f.vars.foldl
    (fun user itr =>
      (List.range itr.2.dimension.toNat).foldl
        (fun user i => fun a =>
          if a = itr.1 + i then x.coeff (itr.2.global_index + i) else user a) user)
    user

/-- The blocks a term reads through `&itr->temp_variables[0]`. -/
def Function.temp_values [Zero S] (f : Function S) (t : AddedTerm S) : List (List S) :=
  (List.range t.term.number_of_variables).map fun var =>
    (List.range (t.term.variable_dimension var)).map fun i =>
      match map_find f.vars (t.temp_variables.getD var 0) with
      | some var_info => var_info.temp_space.getD i 0
      | none => 0

/-- The blocks a term reads through `&itr->user_variables[0]`. -/
def AddedTerm.user_values (t : AddedTerm S) (user : Nat → S) : List (List S) :=
  (List.range t.term.number_of_variables).map fun var =>
    (List.range (t.term.variable_dimension var)).map fun i =>
      user (t.user_variables.getD var 0 + i)

/-- Method `Function::evaluate(const Eigen::VectorXd& x)`: the value, and the
state with the scratch space it has written. -/
def Function.evaluate [Add S] [Zero S] (f : Function S) (x : VectorXd S) : S × Function S :=
  let f1 := f.copy_global_to_local x
  (f1.terms.foldl (fun value itr => value + itr.term.evaluate (f1.temp_values itr)) 0, f1)

/-- Method `Function::evaluate()`, which reads the callers' memory. -/
def Function.evaluate_live [Add S] [Zero S] (f : Function S) (user : Nat → S) : S :=
  f.terms.foldl (fun value itr => value + itr.term.evaluate (itr.user_values user)) 0

/-- Read `itr->gradient[var][i]`. -/
def AddedTerm.gradient_at [Zero S] (itr : AddedTerm S) (var i : Nat) : S :=
  (itr.gradient.getD var default).coeff i

/-- Read `itr->hessian[var0][var1](i, j)`. -/
def AddedTerm.hessian_at [Zero S] (itr : AddedTerm S) (var0 var1 i j : Nat) : S :=
  ((itr.hessian.getD var0 []).getD var1 default).coeff i j

/-- The call `terms[i].term->evaluate(&terms[i].temp_variables[0],
&terms[i].gradient, &terms[i].hessian)`: the value, and the term record with
the buffers the term has filled. -/
def Function.evaluate_term [Zero S] (f : Function S) (itr : AddedTerm S) : S × AddedTerm S :=
  let r := itr.term.evaluate_derivatives (f.temp_values itr) itr.gradient itr.hessian
  (r.1, { itr with gradient := r.2.1, hessian := r.2.2 })

/-- The first loop of the derivative evaluations (the one OpenMP may run in
parallel), in sequential order: the summed value and the term records. -/
def Function.evaluate_terms [Add S] [Zero S] (f : Function S) : S × List (AddedTerm S) :=
  (f.terms.foldl (fun value itr => value + (f.evaluate_term itr).1) 0,
   f.terms.map fun itr => (f.evaluate_term itr).2)

/-- "Put the gradient into the global gradient", for one term. -/
def Function.write_gradient [Add S] [Zero S] (f : Function S) (itr : AddedTerm S)
    (gradient : VectorXd S) : Except Error (VectorXd S) :=
  (List.range itr.term.number_of_variables).foldlM
    (fun gradient var => do
      let global_offset ← f.global_index (itr.user_variables.getD var 0)
      pure ((List.range (itr.term.variable_dimension var)).foldl
        (fun gradient i => gradient.add_at (global_offset + i) (itr.gradient_at var i))
        gradient))
    gradient

/-- "Put the hessian into the global hessian", for one term, dense target. -/
def Function.write_hessian [Add S] [Zero S] (f : Function S) (itr : AddedTerm S)
    (hessian : MatrixXd S) : Except Error (MatrixXd S) :=
  (List.range itr.term.number_of_variables).foldlM
    (fun hessian var0 => do
      let global_offset0 ← f.global_index (itr.user_variables.getD var0 0)
      (List.range itr.term.number_of_variables).foldlM
        (fun hessian var1 => do
          let global_offset1 ← f.global_index (itr.user_variables.getD var1 0)
          pure ((List.range (itr.term.variable_dimension var0)).foldl
            (fun hessian i =>
              (List.range (itr.term.variable_dimension var1)).foldl
                (fun hessian j =>
                  hessian.add_at (i + global_offset0) (j + global_offset1)
                    (itr.hessian_at var0 var1 i j))
                hessian)
            hessian))
        hessian)
    hessian

/-- "Put the hessian into the global hessian", for one term, triplet target:
the loop shared by the sparse evaluation (`value` reads `part_hessian(i, j)`)
and by `create_sparse_hessian` (`value` is `1.0`).  The state of the loop is
the list `indices` and the counter `number_of_hessian_elements`. -/
def Function.push_triplets (f : Function S) (itr : AddedTerm S)
    (value : Nat → Nat → Nat → Nat → S) (acc : List (Triplet S) × Nat) :
    Except Error (List (Triplet S) × Nat) :=
  (List.range itr.term.number_of_variables).foldlM
    (fun acc var0 => do
      let global_offset0 ← f.global_index (itr.user_variables.getD var0 0)
      (List.range itr.term.number_of_variables).foldlM
        (fun acc var1 => do
          let global_offset1 ← f.global_index (itr.user_variables.getD var1 0)
          pure ((List.range (itr.term.variable_dimension var0)).foldl
            (fun acc i =>
              (List.range (itr.term.variable_dimension var1)).foldl
                (fun acc j =>
                  (acc.1 ++ [⟨i + global_offset0, j + global_offset1, value var0 var1 i j⟩],
                   acc.2 + 1))
                acc)
            acc))
        acc)
    acc

/-- Method `Function::create_sparse_hessian(H)`: the matrix, and the state
with the updated counter. -/
def Function.create_sparse_hessian [One S] (f : Function S) (H : SparseMatrix S) :
    Except Error (SparseMatrix S × Function S) := do
  let acc ← f.terms.foldlM (fun acc itr => f.push_triplets itr (fun _ _ _ _ => 1) acc) ([], 0)
  pure ((H.resize f.number_of_scalars f.number_of_scalars).setFromTriplets acc.1,
        { f with number_of_hessian_elements := acc.2 })

/-- Result of a derivative evaluation with a dense Hessian. -/
structure DenseResult (S : Type) where
  value : S
  gradient : VectorXd S
  hessian : MatrixXd S
  state : Function S

/-- Result of a derivative evaluation with a sparse Hessian. -/
structure SparseResult (S : Type) where
  value : S
  gradient : VectorXd S
  hessian : SparseMatrix S
  state : Function S

/-- The body of the loop "Go through and evaluate each term" of the dense
evaluation: the gradient and the Hessian after the term `itr`. -/
def Function.collect_dense [Add S] [Zero S] (f : Function S) (itr : AddedTerm S)
    (out : VectorXd S × MatrixXd S) : Except Error (VectorXd S × MatrixXd S) := do
  let gradient ← f.write_gradient itr out.1
  let hessian ← f.write_hessian itr out.2
  pure (gradient, hessian)

/-- The body of the loop "Collect the gradients and hessians from each term"
of the sparse evaluation: the gradient, the triplets and the counter after the
term `itr`. -/
def Function.collect_sparse [Add S] [Zero S] (f : Function S) (itr : AddedTerm S)
    (out : VectorXd S × List (Triplet S) × Nat) :
    Except Error (VectorXd S × List (Triplet S) × Nat) := do
  let gradient ← f.write_gradient itr out.1
  let indices ← f.push_triplets itr (fun var0 var1 i j => itr.hessian_at var0 var1 i j) out.2
  pure (gradient, indices)

/-- The state in which the collecting loops run: the scratch space holds the
slices of `x`, and every term has filled its gradient and Hessian blocks. -/
def Function.after_map [Add S] [Zero S] (f : Function S) (x : VectorXd S) : Function S :=
  let f1 := f.copy_global_to_local x
  { f1 with terms := f1.evaluate_terms.2 }

/-- Method `Function::evaluate(x, gradient, Eigen::MatrixXd* hessian)`. -/
def Function.evaluate_dense [Add S] [Mul S] [Zero S] (f : Function S) (x : VectorXd S)
    (gradient : VectorXd S) (hessian : MatrixXd S) (fresh : Fresh S) :
    Except Error (DenseResult S) := do
  let value := (f.copy_global_to_local x).evaluate_terms.1
  let f2 := f.after_map x
  let gradient := (gradient.resize f2.number_of_scalars fresh.vector).setConstant 0
  let hessian :=
    (hessian.resize f2.number_of_scalars f2.number_of_scalars fresh.matrix).scale 0
  let out ← f2.terms.foldlM (fun out itr => f2.collect_dense itr out) (gradient, hessian)
  pure ⟨value, out.1, out.2, f2⟩

/-- Method `Function::evaluate(x, gradient, Eigen::SparseMatrix<double>* hessian)`. -/
def Function.evaluate_sparse [Add S] [Zero S] (f : Function S) (x : VectorXd S)
    (gradient : VectorXd S) (hessian : SparseMatrix S) (fresh : Fresh S) :
    Except Error (SparseResult S) := do
  let value := (f.copy_global_to_local x).evaluate_terms.1
  let f2 := f.after_map x
  let gradient := (gradient.resize f2.number_of_scalars fresh.vector).setConstant 0
  let out ← f2.terms.foldlM (fun out itr => f2.collect_sparse itr out) (gradient, [], 0)
  pure ⟨value, out.1, hessian.setFromTriplets out.2.1,
        { f2 with number_of_hessian_elements := out.2.2 }⟩

end Operations

/-! ## Reachable states -/

/-- The states a `Function` can be in after any sequence of `add_variable` and
`add_term` calls, whether they returned or threw. -/
inductive Reachable {S : Type} [Zero S] : Function S → Prop where
  | init : Reachable Function.init
  | add_variable (f : Function S) (key : Key) (dimension : Int) :
      Reachable f → Reachable (f.add_variable key dimension).state
  | add_term (f : Function S) (term : Term S) (arguments : List Key) (fresh : Fresh S) :
      Reachable f → Reachable (f.add_term term arguments fresh).state

/-! ## The scenario of the specification -/

/-- A `double` as far as this file needs one: a number or NaN, which every
arithmetic operation propagates. -/
inductive Double where
  | num (v : Int)
  | nan
  deriving DecidableEq, Repr

instance : Zero Double := ⟨Double.num 0⟩

instance : One Double := ⟨Double.num 1⟩

instance : Add Double :=
  ⟨fun a b => match a, b with
    | Double.num v, Double.num w => Double.num (v + w)
    | _, _ => Double.nan⟩

instance : Mul Double :=
  ⟨fun a b => match a, b with
    | Double.num v, Double.num w => Double.num (v * w)
    | _, _ => Double.nan⟩

section Scenario

variable {S : Type} [Add S] [Mul S] [Zero S] [One S]

/-- The address of the block `a` (two scalars). -/
def scenario_a : Key := 10

/-- The address of the block `b` (one scalar). -/
def scenario_b : Key := 20

/-- The term `f(a, b) = a[0]^2 + a[1] * b[0]` with its derivatives. -/
def scenario_term : Term S :=
  let at2 (v : List (List S)) (p i : Nat) : S := (v.getD p []).getD i 0
  { addr := 1000
    number_of_variables := 2
    variable_dimension := fun var => if var = 0 then 2 else 1
    evaluate := fun v => at2 v 0 0 * at2 v 0 0 + at2 v 0 1 * at2 v 1 0
    evaluate_derivatives := fun v _ _ =>
      (at2 v 0 0 * at2 v 0 0 + at2 v 0 1 * at2 v 1 0,
       [⟨2, fun i => if i = 0 then at2 v 0 0 + at2 v 0 0 else at2 v 1 0⟩,
        ⟨1, fun _ => at2 v 0 1⟩],
       [[⟨2, 2, fun i j => if i = 0 ∧ j = 0 then 1 + 1 else 0⟩,
         ⟨2, 1, fun i _ => if i = 1 then 1 else 0⟩],
        [⟨1, 2, fun _ j => if j = 1 then 1 else 0⟩,
         ⟨1, 1, fun _ _ => 0⟩]]) }

/-- Storage contents used in the scenario. -/
def scenario_fresh : Fresh S := ⟨fun _ => 0, fun _ _ => 0⟩

/-- Variables `a` (dimension 2) and `b` (dimension 1), registered in that order. -/
def scenario_variables : Function S :=
  ((Function.init.add_variable scenario_a 2).state.add_variable scenario_b 1).state

/-- The scenario: `a`, `b`, and the term added with arguments `(a, b)`. -/
def scenario : Function S :=
  (scenario_variables.add_term scenario_term [scenario_a, scenario_b] scenario_fresh).state

/-- The vector `x = [1, 2, 3]`. -/
def scenario_x : VectorXd S := ⟨3, fun i => if i = 0 then 1 else if i = 1 then 1 + 1 else 1 + 1 + 1⟩

end Scenario

/-- A term of arity 2 that declares dimension 1 for both arguments. -/
def unit_term {S : Type} [Zero S] : Term S :=
  { addr := 2000
    number_of_variables := 2
    variable_dimension := fun _ => 1
    evaluate := fun _ => 0
    evaluate_derivatives := fun _ gradient hessian => (0, gradient, hessian) }

/-- The callers' memory of the scenario: `a = [1, 2]`, `b = [3]`. -/
def scenario_user {S : Type} [Add S] [Zero S] [One S] : Nat → S :=
  fun address =>
    if address = 10 then 1 else if address = 11 then 1 + 1
    else if address = 20 then 1 + 1 + 1 else 0

/-- The scenario with a third variable `c` (dimension 1, address 30) that no
term uses. -/
def scenario_unused {S : Type} [Add S] [Mul S] [Zero S] [One S] : Function S :=
  (scenario.add_variable 30 1).state

/-- The vector `x = [1, 2, 3, 4]`. -/
def scenario_unused_x {S : Type} [Add S] [Zero S] [One S] : VectorXd S :=
  ⟨4, fun i => if i = 0 then 1 else if i = 1 then 1 + 1 else if i = 2 then 1 + 1 + 1
    else 1 + 1 + 1 + 1⟩

/-- A dense matrix of the given dimensions whose coefficients are all NaN. -/
def nan_matrix (rows cols : Nat) : MatrixXd Double :=
  ⟨rows, cols, fun _ _ => Double.nan⟩

/-! ## Sequences of registrations -/

/-- The state after a sequence of `add_variable` calls `(key, dimension)`. -/
def add_variables {S : Type} [Zero S] (f : Function S) : List (Key × Int) → Function S
  | [] => f
  | call :: rest => add_variables (f.add_variable call.1 call.2).state rest

/-- Offset `d_1 + ... + d_i` of the `i`-th call of a sequence. -/
def offset_in (calls : List (Key × Int)) (i : Nat) : Nat :=
  ((calls.take i).map fun call => call.2.toNat).sum

/-- A position of the argument list passes the validation of `add_term`. -/
def arg_ok {S : Type} (f : Function S) (term : Term S) (arguments : List Key) (var : Nat) : Prop :=
  ∃ info, map_find f.vars (arguments.getD var 0) = some info ∧
    info.dimension = (term.variable_dimension var : Int)

/-! ## Invariant of the reachable states -/

/-- The index ranges of two variable records do not overlap. -/
def ranges_apart {S : Type} (e1 e2 : Key × AddedVariable S) : Prop :=
  e1.2.global_index + e1.2.dimension.toNat ≤ e2.2.global_index ∨
  e2.2.global_index + e2.2.dimension.toNat ≤ e1.2.global_index

/-- What `add_variable` and `add_term` maintain: scratch space has the size of
the dimension, the index ranges lie below `number_of_scalars` and do not
overlap, and every argument of a term is registered with the dimension the
term declares. -/
structure WellFormed {S : Type} (f : Function S) : Prop where
  temp_space_length : ∀ e ∈ f.vars, e.2.temp_space.length = e.2.dimension.toNat
  ranges_below : ∀ e ∈ f.vars, e.2.global_index + e.2.dimension.toNat ≤ f.number_of_scalars
  ranges_disjoint : f.vars.Pairwise ranges_apart
  arguments_length : ∀ t ∈ f.terms, t.user_variables.length = t.term.number_of_variables
  temp_pointers : ∀ t ∈ f.terms, ∀ var, var < t.term.number_of_variables →
    t.temp_variables.getD var 0 = t.user_variables.getD var 0
  arguments_ok : ∀ t ∈ f.terms, ∀ var, var < t.term.number_of_variables →
    arg_ok f t.term t.user_variables var

/-! ## Vocabulary of the statements -/

/-- The slice `x[global_index(key) .. global_index(key) + dimension(key))`. -/
def Function.slice {S : Type} (f : Function S) (x : VectorXd S) (key : Key) : List S :=
  match map_find f.vars key with
  | some info => (List.range info.dimension.toNat).map fun i => x.coeff (info.global_index + i)
  | none => []

/-- The live block `key[0 .. dimension(key))` in the callers' memory. -/
def Function.live_block {S : Type} (f : Function S) (user : Nat → S) (key : Key) : List S :=
  match map_find f.vars key with
  | some info => (List.range info.dimension.toNat).map fun i => user (key + i)
  | none => []

/-- The offset `global_index(key)` of a registered key (0 for any other key). -/
def Function.offset {S : Type} (f : Function S) (key : Key) : Nat :=
  match f.global_index key with
  | Except.ok g => g
  | Except.error _ => 0

/-- The gradient contributions of one term, in the order of the loops: for
every argument position `var` and component `i`, the index
`offset(arg_var) + i` with the entry `i` of the local gradient block `var`. -/
def Function.term_gradient_entries {S : Type} [Zero S] (f : Function S) (t : AddedTerm S) :
    List (Nat × S) :=
  (List.range t.term.number_of_variables).flatMap fun var =>
    (List.range (t.term.variable_dimension var)).map fun i =>
      (f.offset (t.user_variables.getD var 0) + i, t.gradient_at var i)

/-- The gradient contributions of all terms, in registration order. -/
def Function.gradient_entries {S : Type} [Zero S] (f : Function S) : List (Nat × S) :=
  f.terms.flatMap f.term_gradient_entries

/-- The Hessian contributions of one term, in the order of the loops: for
every ordered pair of argument positions `(var0, var1)` and components
`(i, j)`, the position `(offset(arg_var0) + i, offset(arg_var1) + j)` with
`value var0 var1 i j`. -/
def Function.term_hessian_entries {S : Type} (f : Function S) (t : AddedTerm S)
    (value : Nat → Nat → Nat → Nat → S) : List (Triplet S) :=
  (List.range t.term.number_of_variables).flatMap fun var0 =>
    (List.range t.term.number_of_variables).flatMap fun var1 =>
      (List.range (t.term.variable_dimension var0)).flatMap fun i =>
        (List.range (t.term.variable_dimension var1)).map fun j =>
          ⟨i + f.offset (t.user_variables.getD var0 0),
           j + f.offset (t.user_variables.getD var1 0), value var0 var1 i j⟩

/-- The Hessian contributions of all terms, in registration order, with the
entries of the local Hessian blocks as values. -/
def Function.hessian_entries {S : Type} [Zero S] (f : Function S) : List (Triplet S) :=
  f.terms.flatMap fun t => f.term_hessian_entries t (t.hessian_at)

/-- The sum, from `init` on and in list order, of the contributions to index `g`. -/
def sum_at {S : Type} [Add S] (init : S) (entries : List (Nat × S)) (g : Nat) : S :=
  ((entries.filter fun e => e.1 = g).map fun e => e.2).foldl (· + ·) init

/-- The sum, from `init` on and in list order, of the contributions to
position `(r, c)`. -/
def sum_at_position {S : Type} [Add S] (init : S) (entries : List (Triplet S)) (r c : Nat) : S :=
  ((entries.filter fun t => t.row = r ∧ t.col = c).map fun t => t.value).foldl (· + ·) init

/-- Every argument of every term has a `global_index`. -/
def args_registered {S : Type} (f : Function S) : Prop :=
  ∀ t ∈ f.terms, ∀ var, var < t.term.number_of_variables →
    ∃ g, f.global_index (t.user_variables.getD var 0) = Except.ok g

/-- The triplets of `create_sparse_hessian`: the Hessian positions of all
terms, in registration order, each with the value `1.0`. -/
def Function.pattern_entries {S : Type} [One S] (f : Function S) : List (Triplet S) :=
  f.terms.flatMap fun t => f.term_hessian_entries t (fun _ _ _ _ => 1)

/-- The index `p` lies in the range
`[global_index(key), global_index(key) + dimension(key))` of a registered key. -/
def Function.in_range_of {S : Type} (f : Function S) (key : Key) (p : Nat) : Prop :=
  ∃ info, map_find f.vars key = some info ∧
    info.global_index ≤ p ∧ p < info.global_index + info.dimension.toNat

/-- The square of the sum of the dimensions of the arguments of a term. -/
def Term.hessian_size {S : Type} (term : Term S) : Nat :=
  ((List.range term.number_of_variables).map term.variable_dimension).sum ^ 2

/-- A term of arity 1 over a block of dimension `dim`, which leaves its output
buffers as they are. -/
def block_term {S : Type} [Zero S] (addr dim : Nat) : Term S :=
  { addr := addr
    number_of_variables := 1
    variable_dimension := fun _ => dim
    evaluate := fun _ => 0
    evaluate_derivatives := fun _ gradient hessian => (0, gradient, hessian) }

/-- Variables `a` and `b` of the scenario with two terms, one over `a` alone
and one over `b` alone. -/
def scenario_disjoint {S : Type} [Add S] [Mul S] [Zero S] [One S] : Function S :=
  ((scenario_variables.add_term (block_term 3000 2) [scenario_a] scenario_fresh).state.add_term
    (block_term 3001 1) [scenario_b] scenario_fresh).state

/-- What `add_variable` maintains besides `WellFormed`: the keys of the map
are distinct, and every index below `number_of_scalars` lies in the range of a
variable. -/
structure Partitioned {S : Type} (f : Function S) : Prop where
  keys_nodup : (f.vars.map Prod.fst).Nodup
  ranges_cover : ∀ p, p < f.number_of_scalars →
    ∃ e ∈ f.vars, e.2.global_index ≤ p ∧ p < e.2.global_index + e.2.dimension.toNat

/-- The live blocks of two variable records do not overlap in the callers'
memory. -/
def blocks_apart {S : Type} (e1 e2 : Key × AddedVariable S) : Prop :=
  e1.1 + e1.2.dimension.toNat ≤ e2.1 ∨ e2.1 + e2.2.dimension.toNat ≤ e1.1

/-- The live blocks `[key, key + dimension)` of the registered variables are
pairwise non-overlapping. -/
def Function.live_blocks_apart {S : Type} (f : Function S) : Prop :=
  ∀ k k' info info', map_find f.vars k = some info → map_find f.vars k' = some info' →
    k ≠ k' → k + info.dimension.toNat ≤ k' ∨ k' + info'.dimension.toNat ≤ k

/-- Variable `b` (dimension 1, address 20) registered before `a` (dimension 2,
address 10): the map iterates `a` first, the offsets put `b` first. -/
def scenario_reversed {S : Type} [Zero S] : Function S :=
  ((Function.init.add_variable scenario_b 1).state.add_variable scenario_a 2).state

/-! ## Ownership of the terms -/

/-- Assignment to the public data member `term_deletion`. -/
def Function.set_term_deletion {S : Type} (f : Function S) (policy : TermDeletion) :
    Function S :=
  { f with term_deletion := policy }

/-- A call of the registration interface. -/
inductive Call (S : Type) where
  | add_variable (key : Key) (dimension : Int)
  | add_term (term : Term S) (arguments : List Key) (fresh : Fresh S)

/-- The outcome of one call. -/
def Function.call {S : Type} [Zero S] (f : Function S) : Call S → Outcome S
  | Call.add_variable key dimension => f.add_variable key dimension
  | Call.add_term term arguments fresh => f.add_term term arguments fresh

/-- The state after a sequence of calls, whether they returned or threw. -/
def run {S : Type} [Zero S] (f : Function S) : List (Call S) → Function S
  | [] => f
  | c :: rest => run (f.call c).state rest

/-- The address of the term of a call, if the call is an `add_term` that
returns normally from the state `f`. -/
def Function.added_by {S : Type} [Zero S] (f : Function S) (c : Call S) : Option Nat :=
  match c with
  | Call.add_variable _ _ => none
  | Call.add_term term _ _ => if (f.call c).error = none then some term.addr else none

/-- The addresses of the terms added successfully by a sequence of calls, one
entry per successful `add_term` call, in call order. -/
def added_addresses {S : Type} [Zero S] (f : Function S) : List (Call S) → List Nat
  | [] => []
  | c :: rest => (f.added_by c).toList ++ added_addresses (f.call c).state rest

/-- The scenario with the caller-owned policy chosen before the term is
added. -/
def scenario_caller_owned {S : Type} [Add S] [Mul S] [Zero S] [One S] : Function S :=
  ((scenario_variables.set_term_deletion TermDeletion.DoNotDeleteTerms).add_term
    scenario_term [scenario_a, scenario_b] scenario_fresh).state

/-- Every local Hessian grid is symmetric as a whole: block `(var0, var1)` at
`(i, j)` equals block `(var1, var0)` at `(j, i)`, for all argument pairs and
components of every term. -/
def Function.local_hessians_symmetric {S : Type} [Zero S] (f : Function S) : Prop :=
  ∀ t ∈ f.terms, ∀ var0, var0 < t.term.number_of_variables →
    ∀ var1, var1 < t.term.number_of_variables →
      ∀ i, i < t.term.variable_dimension var0 → ∀ j, j < t.term.variable_dimension var1 →
        t.hessian_at var0 var1 i j = t.hessian_at var1 var0 j i

/-- A dense `3 x 3` matrix whose coefficient `(0, 1)` is NaN and whose other
coefficients are 0. -/
def nan_above_diagonal : MatrixXd Double :=
  ⟨3, 3, fun r c => if r = 0 ∧ c = 1 then Double.nan else Double.num 0⟩

/-- The calls of the scenario, followed by a second registration of the same
term and by a registration that fails (the term declares dimension 1 for
`a`). -/
def scenario_calls {S : Type} [Add S] [Mul S] [Zero S] [One S] : List (Call S) :=
  [Call.add_variable scenario_a 2, Call.add_variable scenario_b 1,
   Call.add_term scenario_term [scenario_a, scenario_b] scenario_fresh,
   Call.add_term scenario_term [scenario_a, scenario_b] scenario_fresh,
   Call.add_term unit_term [scenario_a, scenario_b] scenario_fresh]

/-! ## Lemmas on the containers -/

theorem map_find_insert {α : Type} (m : List (Key × α)) (k : Key) (v : α) (k' : Key) :
    map_find (map_insert m k v) k' = if k' = k then some v else map_find m k' := by
  induction m with
  | nil => simp [map_insert, map_find]
  | cons hd tl ih =>
    obtain ⟨k0, v0⟩ := hd
    simp only [map_insert]
    by_cases h1 : k < k0
    · simp [h1, map_find]
    · by_cases h2 : k = k0
      · subst h2
        simp only [lt_irrefl, if_false, if_true, map_find]
        by_cases h3 : k' = k <;> simp [h3]
      · simp only [h1, h2, if_false, map_find, ih]
        by_cases h3 : k' = k0
        · subst h3
          have : ¬ k' = k := fun h => h2 h.symm
          simp [this]
        · simp [h3]

theorem offset_in_succ (calls : List (Key × Int)) (i : Nat) (c : Key × Int)
    (h : calls[i]? = some c) : offset_in calls (i + 1) = offset_in calls i + c.2.toNat := by
  simp [offset_in, List.take_succ, h]

theorem offset_in_le_succ (calls : List (Key × Int)) (i : Nat) :
    offset_in calls i ≤ offset_in calls (i + 1) := by
  cases h : calls[i]? with
  | none => simp [offset_in, List.take_succ, h]
  | some c => rw [offset_in_succ calls i c h]; exact Nat.le_add_right _ _

theorem offset_in_mono (calls : List (Key × Int)) {i j : Nat} (h : i ≤ j) :
    offset_in calls i ≤ offset_in calls j := by
  induction h with
  | refl => exact le_refl _
  | step _ ih => exact le_trans ih (offset_in_le_succ calls _)

theorem offset_in_length (calls : List (Key × Int)) :
    offset_in calls calls.length = (calls.map fun call => call.2.toNat).sum := by
  simp [offset_in]

theorem offset_in_cover (calls : List (Key × Int)) (p : Nat) :
    ∀ n, p < offset_in calls n → ∃ i, i < n ∧ offset_in calls i ≤ p ∧ p < offset_in calls (i + 1) := by
  intro n
  induction n with
  | zero => intro h; simp [offset_in] at h
  | succ n ih =>
    intro h
    by_cases hp : p < offset_in calls n
    · obtain ⟨i, hi, h1, h2⟩ := ih hp
      exact ⟨i, Nat.lt_succ_of_lt hi, h1, h2⟩
    · exact ⟨n, Nat.lt_succ_self n, Nat.le_of_not_lt hp, h⟩

section Registration

variable {S : Type}

theorem add_variable_new [Zero S] (f : Function S) (key : Key) (dimension : Int)
    (hnew : map_find f.vars key = none) (hd : 0 ≤ dimension) :
    f.add_variable key dimension =
      ⟨{ f with
          vars := map_insert f.vars key
            ⟨dimension, f.number_of_scalars, List.replicate dimension.toNat 0⟩
          number_of_scalars := f.number_of_scalars + dimension.toNat },
        none⟩ := by
  have : ¬ dimension < 0 := not_lt.mpr hd
  simp [Function.add_variable, hnew, this]

theorem add_variables_spec [Zero S] (calls : List (Key × Int)) :
    ∀ f : Function S, (calls.map Prod.fst).Nodup →
      (∀ c ∈ calls, map_find f.vars c.1 = none) → (∀ c ∈ calls, 0 ≤ c.2) →
      (add_variables f calls).number_of_scalars
          = f.number_of_scalars + (calls.map fun call => call.2.toNat).sum ∧
      (∀ i c, calls[i]? = some c → ∃ info, map_find (add_variables f calls).vars c.1 = some info ∧
          info.dimension = c.2 ∧ info.global_index = f.number_of_scalars + offset_in calls i) ∧
      (∀ k, (∀ c ∈ calls, c.1 ≠ k) →
          map_find (add_variables f calls).vars k = map_find f.vars k) := by
  induction calls with
  | nil =>
    intro f _ _ _
    simp [add_variables]
  | cons call rest ih =>
    intro f hnd hnew hnn
    have hcall := add_variable_new f call.1 call.2 (hnew call (List.mem_cons_self _ _))
      (hnn call (List.mem_cons_self _ _))
    simp only [List.map_cons, List.nodup_cons] at hnd
    obtain ⟨hnot, hnd'⟩ := hnd
    have hne : ∀ c ∈ rest, c.1 ≠ call.1 := by
      intro c hc heq
      exact hnot (heq ▸ List.mem_map_of_mem Prod.fst hc)
    have hnew' : ∀ c ∈ rest, map_find (f.add_variable call.1 call.2).state.vars c.1 = none := by
      intro c hc
      rw [hcall]
      simp only [map_find_insert, hne c hc, if_false]
      exact hnew c (List.mem_cons_of_mem _ hc)
    obtain ⟨h1, h2, h3⟩ := ih (f.add_variable call.1 call.2).state hnd' hnew'
      (fun c hc => hnn c (List.mem_cons_of_mem _ hc))
    refine ⟨?_, ?_, ?_⟩
    · simp only [add_variables]
      rw [h1, hcall]
      simp only [List.map_cons, List.sum_cons]
      omega
    · intro i c hi
      cases i with
      | zero =>
        simp only [List.getElem?_cons_zero, Option.some.injEq] at hi
        subst hi
        refine ⟨⟨call.2, f.number_of_scalars, List.replicate call.2.toNat 0⟩, ?_, rfl, ?_⟩
        · simp only [add_variables]
          rw [h3 call.1 hne, hcall]
          simp [map_find_insert]
        · simp [offset_in]
      | succ i =>
        simp only [List.getElem?_cons_succ] at hi
        obtain ⟨info, hf, hdim, hgi⟩ := h2 i c hi
        refine ⟨info, hf, hdim, ?_⟩
        rw [hgi, hcall]
        simp only [offset_in, List.take_succ_cons, List.map_cons, List.sum_cons]
        omega
    · intro k hk
      simp only [add_variables]
      rw [h3 k (fun c hc => hk c (List.mem_cons_of_mem _ hc)), hcall]
      have : k ≠ call.1 := fun h => hk call (List.mem_cons_self _ _) h.symm
      simp [map_find_insert, this]

theorem add_term_check_none (f : Function S) (term : Term S) (arguments : List Key)
    (vars : List Nat) :
    f.add_term_check term arguments vars = none ↔ ∀ var ∈ vars, arg_ok f term arguments var := by
  induction vars with
  | nil => simp [Function.add_term_check]
  | cons var rest ih =>
    simp only [Function.add_term_check, List.mem_cons, forall_eq_or_imp, arg_ok]
    cases h : map_find f.vars (arguments.getD var 0) with
    | none => simp
    | some info =>
      by_cases hd : info.dimension = (term.variable_dimension var : Int)
      · simp only [hd, ne_eq, not_true_eq_false, if_false, ih, Option.some.injEq, exists_eq_left']
        simp [arg_ok]
      · simp [hd]

theorem add_term_check_append (f : Function S) (term : Term S) (arguments : List Key)
    (l1 l2 : List Nat) (h : ∀ var ∈ l1, arg_ok f term arguments var) :
    f.add_term_check term arguments (l1 ++ l2) = f.add_term_check term arguments l2 := by
  induction l1 with
  | nil => rfl
  | cons var rest ih =>
    obtain ⟨info, h1, h2⟩ := h var (List.mem_cons_self _ _)
    simp only [List.cons_append, Function.add_term_check, h1, h2, ne_eq, not_true_eq_false,
      if_false]
    exact ih (fun v hv => h v (List.mem_cons_of_mem _ hv))

theorem range_split (n var : Nat) (h : var < n) :
    ∃ rest, List.range n = List.range var ++ var :: rest := by
  obtain ⟨k, rfl⟩ : ∃ k, n = var + (k + 1) := ⟨n - var - 1, by omega⟩
  refine ⟨(List.range k).map fun i => var + (i + 1), ?_⟩
  rw [List.range_add, List.range_succ_eq_map]
  simp [Function.comp_def]

theorem add_term_check_first (f : Function S) (term : Term S) (arguments : List Key)
    (n var : Nat) (h : var < n) (hbefore : ∀ v, v < var → arg_ok f term arguments v) :
    f.add_term_check term arguments (List.range n) =
      match map_find f.vars (arguments.getD var 0) with
      | none => some Error.unknown_variable
      | some info =>
        if info.dimension ≠ (term.variable_dimension var : Int) then
          some Error.variable_dimension_does_not_match_term
        else f.add_term_check term arguments (List.range n) := by
  obtain ⟨rest, hrest⟩ := range_split n var h
  cases hf : map_find f.vars (arguments.getD var 0) with
  | none =>
    rw [hrest, add_term_check_append f term arguments _ _
      (fun v hv => hbefore v (List.mem_range.mp hv))]
    simp only [Function.add_term_check, hf]
  | some info =>
    by_cases hd : info.dimension = (term.variable_dimension var : Int)
    · simp [hd]
    · simp only [ne_eq, hd, not_false_eq_true, if_true]
      rw [hrest, add_term_check_append f term arguments _ _
        (fun v hv => hbefore v (List.mem_range.mp hv))]
      simp only [Function.add_term_check, hf, ne_eq, hd, not_false_eq_true, if_true]

end Registration

/-! ## Registration -/

section VariableRegistry

variable {S : Type}

/-- C1: after any sequence of `add_variable` calls on a fresh `Function` with
pairwise distinct keys and non-negative dimensions `d_1..d_n`,
`number_of_scalars` is `d_1 + ... + d_n`; the `i`-th key has `global_index`
`d_1 + ... + d_(i-1)` and its dimension stored; each range starts where the
previous one ends; and every index below `number_of_scalars` lies in the range
`[global_index, global_index + dimension)` of exactly one call. -/
theorem add_variable_offsets_partition [Zero S] (calls : List (Key × Int))
    (hkeys : (calls.map Prod.fst).Nodup) (hdims : ∀ c ∈ calls, 0 ≤ c.2) :
    (add_variables (Function.init : Function S) calls).number_of_scalars
        = (calls.map fun c => c.2.toNat).sum ∧
    (∀ i c, calls[i]? = some c →
      (add_variables (Function.init : Function S) calls).global_index c.1
          = Except.ok (offset_in calls i) ∧
      (map_find (add_variables (Function.init : Function S) calls).vars c.1).map
          (fun info => info.dimension) = some c.2) ∧
    (∀ i c c', calls[i]? = some c → calls[i + 1]? = some c' →
      (add_variables (Function.init : Function S) calls).global_index c'.1
          = Except.ok (offset_in calls i + c.2.toNat)) ∧
    (∀ p, p < (add_variables (Function.init : Function S) calls).number_of_scalars →
      ∃! i : Nat, ∃ (c : Key × Int) (g : Nat), calls[i]? = some c ∧
        (add_variables (Function.init : Function S) calls).global_index c.1 = Except.ok g ∧
        g ≤ p ∧ p < g + c.2.toNat) := by
  obtain ⟨h1, h2, _⟩ := add_variables_spec calls (Function.init : Function S) hkeys
    (fun _ _ => rfl) hdims
  have hn : (add_variables (Function.init : Function S) calls).number_of_scalars
      = (calls.map fun c => c.2.toNat).sum := by
    rw [h1]; simp [Function.init]
  have hgi : ∀ i c, calls[i]? = some c →
      (add_variables (Function.init : Function S) calls).global_index c.1
        = Except.ok (offset_in calls i) := by
    intro i c hi
    obtain ⟨info, hf, _, hg⟩ := h2 i c hi
    simp only [Function.global_index, hf, hg]
    simp [Function.init]
  refine ⟨hn, ?_, ?_, ?_⟩
  · intro i c hi
    obtain ⟨info, hf, hd, _⟩ := h2 i c hi
    exact ⟨hgi i c hi, by simp [hf, hd]⟩
  · intro i c c' hi hi'
    rw [hgi (i + 1) c' hi', offset_in_succ calls i c hi]
  · intro p hp
    rw [hn, ← offset_in_length] at hp
    obtain ⟨i, hi, hlo, hhi⟩ := offset_in_cover calls p calls.length hp
    obtain ⟨c, hc⟩ : ∃ c, calls[i]? = some c := ⟨calls[i], List.getElem?_eq_getElem hi⟩
    refine ⟨i, ⟨c, offset_in calls i, hc, hgi i c hc, hlo, ?_⟩, ?_⟩
    · rw [← offset_in_succ calls i c hc]; exact hhi
    · rintro j ⟨c', g, hc', hg, hlo', hhi'⟩
      rw [hgi j c' hc'] at hg
      cases hg
      rw [← offset_in_succ calls j c' hc'] at hhi'
      by_contra hne
      rcases Nat.lt_or_gt_of_ne hne with hlt | hgt
      · have := offset_in_mono calls (show j + 1 ≤ i from hlt)
        omega
      · have := offset_in_mono calls (show i + 1 ≤ j from hgt)
        omega

/-- C1, at the scenario: `a` of dimension 2 then `b` of dimension 1 give a
count of 3, offset 0 for `a` and offset 2 for `b`. -/
theorem add_variable_offsets_partition_witness :
    (add_variables (Function.init : Function Int) [(10, 2), (20, 1)]).number_of_scalars = 3 ∧
    (add_variables (Function.init : Function Int) [(10, 2), (20, 1)]).global_index 10
      = Except.ok 0 ∧
    (add_variables (Function.init : Function Int) [(10, 2), (20, 1)]).global_index 20
      = Except.ok 2 :=
  have h := @add_variable_offsets_partition Int _ [(10, 2), (20, 1)] (by decide) (by decide)
  ⟨h.1, (h.2.1 0 (10, 2) rfl).1, (h.2.1 1 (20, 1) rfl).1⟩

/-- C2: `add_variable` on a key that is already registered leaves the whole
state unchanged, and throws the dimension-mismatch error exactly when the
dimension differs from the stored one (and returns normally otherwise). -/
theorem add_variable_registered [Zero S] (f : Function S) (key : Key) (dimension : Int)
    (info : AddedVariable S) (h : map_find f.vars key = some info) :
    (f.add_variable key dimension).state = f ∧
    ((f.add_variable key dimension).error = some Error.add_variable_dimension_mismatch
      ↔ dimension ≠ info.dimension) ∧
    ((f.add_variable key dimension).error = none ↔ dimension = info.dimension) := by
  by_cases hd : info.dimension = dimension
  · simp [Function.add_variable, h, hd]
  · have hd' : ¬ dimension = info.dimension := fun e => hd e.symm
    simp [Function.add_variable, h, hd, hd']

/-- C2, at the scenario: registering `a` again with dimension 3. -/
theorem add_variable_registered_witness :
    ((scenario : Function Int).add_variable scenario_a 3).state = scenario ∧
    (((scenario : Function Int).add_variable scenario_a 3).error
        = some Error.add_variable_dimension_mismatch ↔ (3 : Int) ≠ 2) ∧
    (((scenario : Function Int).add_variable scenario_a 3).error = none ↔ (3 : Int) = 2) :=
  add_variable_registered (scenario : Function Int) scenario_a 3 ⟨2, 0, [0, 0]⟩ rfl

end VariableRegistry

section TermRegistry

variable {S : Type}

theorem arg_ok_iff (f : Function S) (term : Term S) (arguments : List Key) (var : Nat)
    (h : var < arguments.length) :
    arg_ok f term arguments var ↔
      ∃ (key : Key) (info : AddedVariable S), arguments[var]? = some key ∧
        map_find f.vars key = some info ∧
        info.dimension = (term.variable_dimension var : Int) := by
  have hk : arguments[var]? = some arguments[var] := List.getElem?_eq_getElem h
  have hD : arguments.getD var 0 = arguments[var] := by
    simp [List.getD_eq_getElem?_getD, hk]
  unfold arg_ok
  rw [hD]
  constructor
  · rintro ⟨info, h1, h2⟩
    exact ⟨arguments[var], info, hk, h1, h2⟩
  · rintro ⟨key, info, h0, h1, h2⟩
    rw [hk] at h0
    cases h0
    exact ⟨info, h1, h2⟩

theorem add_term_check_unknown (f : Function S) (term : Term S) (arguments : List Key)
    (vars : List Nat) (e : Error) (h : f.add_term_check term arguments vars = some e) :
    e = Error.variable_dimension_does_not_match_term ∨
    (e = Error.unknown_variable ∧
      ∃ var ∈ vars, map_find f.vars (arguments.getD var 0) = none) := by
  induction vars with
  | nil => simp [Function.add_term_check] at h
  | cons var rest ih =>
    simp only [Function.add_term_check] at h
    cases hf : map_find f.vars (arguments.getD var 0) with
    | none =>
      rw [hf] at h
      simp only [Option.some.injEq] at h
      exact Or.inr ⟨h.symm, var, List.mem_cons_self _ _, hf⟩
    | some info =>
      rw [hf] at h
      simp only at h
      split at h
      · simp only [Option.some.injEq] at h
        exact Or.inl h.symm
      · rcases ih h with h' | ⟨h1, v, hv, h2⟩
        · exact Or.inl h'
        · exact Or.inr ⟨h1, v, List.mem_cons_of_mem _ hv, h2⟩

theorem add_term_error_eq (f : Function S) (term : Term S) (arguments : List Key)
    (fresh : Fresh S) (hn : term.number_of_variables = arguments.length) :
    (f.add_term term arguments fresh).error
      = f.add_term_check term arguments (List.range term.number_of_variables) := by
  unfold Function.add_term
  rw [if_neg (not_not.mpr hn)]
  cases f.add_term_check term arguments (List.range term.number_of_variables) <;> rfl

theorem add_term_state_eq (f : Function S) (term : Term S) (arguments : List Key)
    (fresh : Fresh S) (e : Error)
    (hc : f.add_term_check term arguments (List.range term.number_of_variables) = some e) :
    (f.add_term term arguments fresh).state = f := by
  unfold Function.add_term
  split
  · rfl
  · rw [hc]

/-- C3, counterexample: with `a` (dimension 2) registered and the key 30 not
registered, adding a term of arity 2 that declares dimension 1 at both
positions with arguments `(a, 30)` has the right argument count and an
unregistered argument key, yet the error is the dimension mismatch, not the
unknown variable. -/
theorem add_term_error_counterexample :
    (unit_term : Term Int).number_of_variables = [scenario_a, 30].length ∧
    map_find (scenario_variables : Function Int).vars 30 = none ∧
    ((scenario_variables : Function Int).add_term unit_term [scenario_a, 30]
        scenario_fresh).error = some Error.variable_dimension_does_not_match_term ∧
    ((scenario_variables : Function Int).add_term unit_term [scenario_a, 30]
        scenario_fresh).error ≠ some Error.unknown_variable := by
  refine ⟨rfl, rfl, rfl, ?_⟩
  intro h
  have h' : ((scenario_variables : Function Int).add_term unit_term [scenario_a, 30]
      scenario_fresh).error = some Error.variable_dimension_does_not_match_term := rfl
  rw [h'] at h
  cases h

/-- C3, amended: `add_term` fails exactly when the argument count differs from
the arity, or some argument key is unregistered, or some argument key is
registered with a dimension other than the one the term declares at that
position.  The error is the argument-count error whenever the count differs.
When the count matches, the error is decided by the first position that is
unregistered or mismatched: unknown variable if its key is unregistered,
dimension mismatch if its key is registered with another dimension; so it is
the dimension mismatch whenever the count matches, all keys are registered and
some position's dimension differs. -/
theorem add_term_error (f : Function S) (term : Term S) (arguments : List Key)
    (fresh : Fresh S) :
    ((f.add_term term arguments fresh).error ≠ none ↔
      (term.number_of_variables ≠ arguments.length ∨
       (∃ (var : Nat) (key : Key), arguments[var]? = some key ∧ map_find f.vars key = none) ∨
       (∃ (var : Nat) (key : Key) (info : AddedVariable S), arguments[var]? = some key ∧
          map_find f.vars key = some info ∧
          info.dimension ≠ (term.variable_dimension var : Int)))) ∧
    (term.number_of_variables ≠ arguments.length →
      (f.add_term term arguments fresh).error = some Error.incorrect_number_of_arguments) ∧
    (term.number_of_variables = arguments.length →
      ∀ (var : Nat) (key : Key), arguments[var]? = some key →
        (∀ v, v < var → ∃ (k : Key) (info : AddedVariable S),
          arguments[v]? = some k ∧ map_find f.vars k = some info ∧
          info.dimension = (term.variable_dimension v : Int)) →
        (map_find f.vars key = none →
          (f.add_term term arguments fresh).error = some Error.unknown_variable) ∧
        (∀ info, map_find f.vars key = some info →
          info.dimension ≠ (term.variable_dimension var : Int) →
          (f.add_term term arguments fresh).error
            = some Error.variable_dimension_does_not_match_term)) ∧
    (term.number_of_variables = arguments.length →
      (∀ (var : Nat) (key : Key), arguments[var]? = some key → map_find f.vars key ≠ none) →
      (∃ (var : Nat) (key : Key) (info : AddedVariable S), arguments[var]? = some key ∧
          map_find f.vars key = some info ∧
          info.dimension ≠ (term.variable_dimension var : Int)) →
      (f.add_term term arguments fresh).error
        = some Error.variable_dimension_does_not_match_term) := by
  have hget : ∀ (var : Nat) (key : Key), arguments[var]? = some key →
      var < arguments.length ∧ arguments.getD var 0 = key := by
    intro var key h
    have hlt : var < arguments.length := by
      by_contra hge
      rw [List.getElem?_eq_none (Nat.le_of_not_lt hge)] at h
      cases h
    exact ⟨hlt, by simp [List.getD_eq_getElem?_getD, h]⟩
  have hfails : (f.add_term term arguments fresh).error ≠ none ↔
      (term.number_of_variables ≠ arguments.length ∨
       (∃ (var : Nat) (key : Key), arguments[var]? = some key ∧ map_find f.vars key = none) ∨
       (∃ (var : Nat) (key : Key) (info : AddedVariable S), arguments[var]? = some key ∧
          map_find f.vars key = some info ∧
          info.dimension ≠ (term.variable_dimension var : Int))) := by
    by_cases hn : term.number_of_variables = arguments.length
    · cases hc : f.add_term_check term arguments (List.range term.number_of_variables) with
      | none =>
        have hall := (add_term_check_none f term arguments _).mp hc
        have herr : (f.add_term term arguments fresh).error = none := by
          rw [add_term_error_eq f term arguments fresh hn, hc]
        simp only [herr, ne_eq, not_true_eq_false, hn, false_or, false_iff, not_or, not_exists,
          not_and]
        constructor
        · intro var key hk hnone
          obtain ⟨hlt, hD⟩ := hget var key hk
          obtain ⟨info, h1, _⟩ := hall var (List.mem_range.mpr (hn ▸ hlt))
          rw [hD, hnone] at h1
          cases h1
        · intro var key info hk hf hne
          obtain ⟨hlt, hD⟩ := hget var key hk
          obtain ⟨info', h1, h2⟩ := hall var (List.mem_range.mpr (hn ▸ hlt))
          rw [hD, hf] at h1
          cases h1
          exact hne h2
      | some e =>
        have herr : (f.add_term term arguments fresh).error = some e := by
          rw [add_term_error_eq f term arguments fresh hn, hc]
        simp only [herr, ne_eq, reduceCtorEq, not_false_eq_true, hn, not_true_eq_false, false_or,
          true_iff]
        have hnot : ¬ ∀ var ∈ List.range term.number_of_variables,
            arg_ok f term arguments var := by
          intro hall
          rw [(add_term_check_none f term arguments _).mpr hall] at hc
          cases hc
        rw [not_forall] at hnot
        obtain ⟨var, hvar⟩ := hnot
        rw [Classical.not_imp] at hvar
        obtain ⟨hmem, hbad⟩ := hvar
        have hlt : var < arguments.length := hn ▸ List.mem_range.mp hmem
        have hk : arguments[var]? = some arguments[var] := List.getElem?_eq_getElem hlt
        cases hf : map_find f.vars arguments[var] with
        | none => exact Or.inl ⟨var, _, hk, hf⟩
        | some info =>
          refine Or.inr ⟨var, _, info, hk, hf, ?_⟩
          intro hd
          exact hbad ((arg_ok_iff f term arguments var hlt).mpr ⟨_, info, hk, hf, hd⟩)
    · have herr : (f.add_term term arguments fresh).error
          = some Error.incorrect_number_of_arguments := by
        simp [Function.add_term, hn]
      simp [herr, hn]
  refine ⟨hfails, ?_, ?_, ?_⟩
  · intro hn
    simp [Function.add_term, hn]
  rotate_left
  · intro hn hall hsome
    have hne : (f.add_term term arguments fresh).error ≠ none :=
      hfails.mpr (Or.inr (Or.inr hsome))
    rw [add_term_error_eq f term arguments fresh hn] at hne ⊢
    cases hc : f.add_term_check term arguments (List.range term.number_of_variables) with
    | none => exact absurd hc hne
    | some e =>
      rcases add_term_check_unknown f term arguments _ e hc with h | ⟨_, var, hvar, hnone⟩
      · rw [h]
      · exfalso
        have hlt : var < arguments.length := hn ▸ List.mem_range.mp hvar
        have hk : arguments[var]? = some arguments[var] := List.getElem?_eq_getElem hlt
        rw [(hget var _ hk).2] at hnone
        exact hall var _ hk hnone
  · intro hn var key hk hbefore
    obtain ⟨hlt, hD⟩ := hget var key hk
    have hlt' : var < term.number_of_variables := hn ▸ hlt
    have hfirst := add_term_check_first f term arguments term.number_of_variables var hlt'
      (fun v hv => (arg_ok_iff f term arguments v (lt_trans hv hlt)).mpr (hbefore v hv))
    rw [hD] at hfirst
    constructor
    · intro hnone
      rw [hnone] at hfirst
      rw [add_term_error_eq f term arguments fresh hn, hfirst]
    · intro info hf hne
      rw [hf] at hfirst
      simp only [ne_eq, hne, not_false_eq_true, if_true] at hfirst
      rw [add_term_error_eq f term arguments fresh hn, hfirst]

/-- C4: a failed `add_term` leaves the state as it was: the term list, the set
of owned terms, the variable map and `number_of_scalars`. -/
theorem add_term_failure_state (f : Function S) (term : Term S) (arguments : List Key)
    (fresh : Fresh S) (h : (f.add_term term arguments fresh).error ≠ none) :
    (f.add_term term arguments fresh).state = f := by
  by_cases hn : term.number_of_variables = arguments.length
  · cases hc : f.add_term_check term arguments (List.range term.number_of_variables) with
    | none =>
      exfalso
      apply h
      rw [add_term_error_eq f term arguments fresh hn, hc]
    | some e => exact add_term_state_eq f term arguments fresh e hc
  · simp [Function.add_term, hn]

/-- C4, at the scenario: adding the term with the single argument `a` fails. -/
theorem add_term_failure_state_witness :
    ((scenario : Function Int).add_term scenario_term [scenario_a] scenario_fresh).state
      = scenario :=
  add_term_failure_state (scenario : Function Int) scenario_term [scenario_a] scenario_fresh
    (by
      have h : ((scenario : Function Int).add_term scenario_term [scenario_a]
          scenario_fresh).error = some Error.incorrect_number_of_arguments := rfl
      rw [h]
      exact Option.noConfusion)

end TermRegistry

/-! ## The invariant holds in every reachable state -/

section Invariant

variable {S : Type}

theorem map_find_mem {α : Type} (m : List (Key × α)) (k : Key) (v : α)
    (h : map_find m k = some v) : (k, v) ∈ m := by
  induction m with
  | nil => simp [map_find] at h
  | cons hd tl ih =>
    obtain ⟨k0, v0⟩ := hd
    simp only [map_find] at h
    by_cases hk : k = k0
    · simp only [hk, if_true, Option.some.injEq] at h
      simp [hk, h]
    · simp only [hk, if_false] at h
      exact List.mem_cons_of_mem _ (ih h)

theorem mem_map_insert {α : Type} (m : List (Key × α)) (k : Key) (v : α) (e : Key × α)
    (h : e ∈ map_insert m k v) : e = (k, v) ∨ e ∈ m := by
  induction m with
  | nil => simpa [map_insert] using h
  | cons hd tl ih =>
    obtain ⟨k0, v0⟩ := hd
    simp only [map_insert] at h
    by_cases h1 : k < k0
    · simp only [h1, if_true, List.mem_cons] at h
      simpa using h
    · by_cases h2 : k = k0
      · subst h2
        simp only [lt_irrefl, if_false, if_true, List.mem_cons] at h
        rcases h with h | h
        · exact Or.inl h
        · exact Or.inr (List.mem_cons_of_mem _ h)
      · simp only [h1, h2, if_false, List.mem_cons] at h
        rcases h with h | h
        · exact Or.inr (by simp [h])
        · rcases ih h with h | h
          · exact Or.inl h
          · exact Or.inr (List.mem_cons_of_mem _ h)

theorem pairwise_map_insert {α : Type} (R : Key × α → Key × α → Prop)
    (hsymm : ∀ a b, R a b → R b a) (m : List (Key × α)) (k : Key) (v : α)
    (hm : m.Pairwise R) (hnew : ∀ e ∈ m, R (k, v) e) : (map_insert m k v).Pairwise R := by
  induction m with
  | nil => simp [map_insert]
  | cons hd tl ih =>
    obtain ⟨k0, v0⟩ := hd
    rw [List.pairwise_cons] at hm
    obtain ⟨hhd, htl⟩ := hm
    simp only [map_insert]
    by_cases h1 : k < k0
    · simp only [h1, if_true]
      exact List.pairwise_cons.mpr ⟨hnew, List.pairwise_cons.mpr ⟨hhd, htl⟩⟩
    · by_cases h2 : k = k0
      · subst h2
        simp only [lt_irrefl, if_false, if_true]
        exact List.pairwise_cons.mpr ⟨fun e he => hnew e (List.mem_cons_of_mem _ he), htl⟩
      · simp only [h1, h2, if_false]
        refine List.pairwise_cons.mpr ⟨fun e he => ?_, ih htl
          (fun e he => hnew e (List.mem_cons_of_mem _ he))⟩
        rcases mem_map_insert tl k v e he with h | h
        · rw [h]
          exact hsymm _ _ (hnew _ (List.mem_cons_self _ _))
        · exact hhd e h

theorem ranges_apart_symm (a b : Key × AddedVariable S) (h : ranges_apart a b) :
    ranges_apart b a :=
  Or.symm h

theorem arg_ok_insert (f : Function S) (term : Term S) (arguments : List Key) (var : Nat)
    (key : Key) (info : AddedVariable S) (n : Nat) (hnew : map_find f.vars key = none)
    (h : arg_ok f term arguments var) :
    arg_ok { f with vars := map_insert f.vars key info, number_of_scalars := n }
      term arguments var := by
  obtain ⟨i, h1, h2⟩ := h
  refine ⟨i, ?_, h2⟩
  have hne : arguments.getD var 0 ≠ key := by
    intro he
    rw [he, hnew] at h1
    cases h1
  simp only [map_find_insert, hne, if_false]
  exact h1

theorem wellFormed_init : WellFormed (Function.init : Function S) := by
  constructor <;> simp [Function.init]

theorem wellFormed_insert (f : Function S) (hf : WellFormed f) (key : Key) (dimension : Int)
    (temp_space : List S) (hnew : map_find f.vars key = none)
    (hlen : temp_space.length = dimension.toNat) :
    WellFormed { f with
      vars := map_insert f.vars key ⟨dimension, f.number_of_scalars, temp_space⟩
      number_of_scalars := f.number_of_scalars + dimension.toNat } := by
  constructor
  · intro e he
    rcases mem_map_insert _ _ _ _ he with h | h
    · rw [h]; exact hlen
    · exact hf.temp_space_length e h
  · intro e he
    rcases mem_map_insert _ _ _ _ he with h | h
    · rw [h]
    · exact le_trans (hf.ranges_below e h) (Nat.le_add_right _ _)
  · refine pairwise_map_insert ranges_apart ranges_apart_symm _ _ _ hf.ranges_disjoint ?_
    intro e he
    exact Or.inr (hf.ranges_below e he)
  · exact hf.arguments_length
  · exact hf.temp_pointers
  · intro t ht var hvar
    exact arg_ok_insert f t.term t.user_variables var key _ _ hnew (hf.arguments_ok t ht var hvar)

theorem wellFormed_add_variable [Zero S] (f : Function S) (hf : WellFormed f) (key : Key)
    (dimension : Int) : WellFormed (f.add_variable key dimension).state := by
  unfold Function.add_variable
  cases hfind : map_find f.vars key with
  | some info =>
    simp only
    split <;> exact hf
  | none =>
    simp only
    split
    · rename_i hneg
      have h0 : dimension.toNat = 0 := Int.toNat_eq_zero.mpr (le_of_lt hneg)
      have := wellFormed_insert f hf key dimension [] hfind (by simp [h0])
      simpa [h0] using this
    · exact wellFormed_insert f hf key dimension _ hfind (by simp)

theorem wellFormed_add_term (f : Function S) (hf : WellFormed f) (term : Term S)
    (arguments : List Key) (fresh : Fresh S) :
    WellFormed (f.add_term term arguments fresh).state := by
  by_cases hn : term.number_of_variables = arguments.length
  · cases hc : f.add_term_check term arguments (List.range term.number_of_variables) with
    | some e => rw [add_term_state_eq f term arguments fresh e hc]; exact hf
    | none =>
      have hall := (add_term_check_none f term arguments _).mp hc
      unfold Function.add_term
      rw [if_neg (not_not.mpr hn), hc]
      simp only
      constructor
      · exact hf.temp_space_length
      · exact hf.ranges_below
      · exact hf.ranges_disjoint
      · intro t ht
        rcases List.mem_append.mp ht with h | h
        · exact hf.arguments_length t h
        · rw [List.mem_singleton.mp h]; exact hn.symm
      · intro t ht var hvar
        rcases List.mem_append.mp ht with h | h
        · exact hf.temp_pointers t h var hvar
        · rw [List.mem_singleton.mp h] at hvar ⊢
          simp only at hvar ⊢
          rw [List.getD_eq_getElem?_getD, List.getElem?_map,
            List.getElem?_range hvar]
          simp
      · intro t ht var hvar
        rcases List.mem_append.mp ht with h | h
        · exact hf.arguments_ok t h var hvar
        · rw [List.mem_singleton.mp h] at hvar ⊢
          exact hall var (List.mem_range.mpr hvar)
  · have : (f.add_term term arguments fresh).state = f := by
      simp [Function.add_term, hn]
    rw [this]; exact hf

theorem reachable_wellFormed [Zero S] (f : Function S) (h : Reachable f) : WellFormed f := by
  induction h with
  | init => exact wellFormed_init
  | add_variable f key dimension _ ih => exact wellFormed_add_variable f ih key dimension
  | add_term f term arguments fresh _ ih => exact wellFormed_add_term f ih term arguments fresh

end Invariant

/-! ## Value -/

section Value

variable {S : Type}

theorem foldl_congr_mem {α β : Type} (l : List α) (g h : β → α → β)
    (hgh : ∀ b, ∀ a ∈ l, g b a = h b a) (b : β) : l.foldl g b = l.foldl h b := by
  induction l generalizing b with
  | nil => rfl
  | cons a tl ih =>
    simp only [List.foldl_cons]
    rw [hgh b a (List.mem_cons_self _ _)]
    exact ih (fun b a ha => hgh b a (List.mem_cons_of_mem _ ha)) _

theorem foldl_set_range (g : Nat → S) (n : Nat) (l : List S) (h : n ≤ l.length) :
    (List.range n).foldl (fun l i => l.set i (g i)) l = (List.range n).map g ++ l.drop n := by
  induction n with
  | zero => simp
  | succ n ih =>
    rw [List.range_succ, List.foldl_append, ih (Nat.le_of_succ_le h)]
    simp only [List.foldl_cons, List.foldl_nil, List.map_append, List.map_cons, List.map_nil]
    have hlen : ((List.range n).map g).length = n := by simp
    rw [List.set_append_right _ _ (by simp), hlen, Nat.sub_self]
    have hlt : n < l.length := h
    simp only [List.append_assoc, List.singleton_append, List.append_cancel_left_eq]
    rw [List.drop_eq_getElem_cons hlt]
    rfl

theorem load_temp_space (info : AddedVariable S) (x : VectorXd S)
    (h : info.temp_space.length = info.dimension.toNat) :
    (info.load x).temp_space
      = (List.range info.dimension.toNat).map fun i => x.coeff (info.global_index + i) := by
  unfold AddedVariable.load
  simp only
  rw [foldl_set_range (fun i => x.coeff (info.global_index + i)) _ _ (le_of_eq h.symm)]
  rw [← h, List.drop_length, List.append_nil]

theorem map_find_map {α β : Type} (m : List (Key × α)) (h : α → β) (k : Key) :
    map_find (m.map fun e => (e.1, h e.2)) k = (map_find m k).map h := by
  induction m with
  | nil => rfl
  | cons hd tl ih =>
    obtain ⟨k0, v0⟩ := hd
    simp only [List.map_cons, map_find]
    by_cases hk : k = k0
    · simp [hk]
    · simp [hk, ih]

theorem map_find_copy_global_to_local (f : Function S) (x : VectorXd S) (k : Key) :
    map_find (f.copy_global_to_local x).vars k
      = (map_find f.vars k).map fun info => info.load x :=
  map_find_map f.vars (fun info => info.load x) k

theorem list_eq_map_range_getD (l : List Key) :
    l = (List.range l.length).map fun i => l.getD i 0 := by
  apply List.ext_getElem
  · simp
  · intro i h1 h2
    simp [List.getD_eq_getElem?_getD, List.getElem?_eq_getElem h1]

theorem temp_values_eq [Zero S] (f : Function S) (hf : WellFormed f) (x : VectorXd S)
    (t : AddedTerm S) (ht : t ∈ f.terms) :
    (f.copy_global_to_local x).temp_values t = t.user_variables.map (f.slice x) := by
  have hlen := hf.arguments_length t ht
  conv_rhs => rw [list_eq_map_range_getD t.user_variables, List.map_map, hlen]
  unfold Function.temp_values
  apply List.map_congr_left
  intro var hvar
  have hvar' := List.mem_range.mp hvar
  obtain ⟨info, hfind, hdim⟩ := hf.arguments_ok t ht var hvar'
  have hmem := map_find_mem _ _ _ hfind
  have hd : info.dimension.toNat = t.term.variable_dimension var := by
    rw [hdim]; simp
  simp only [Function.comp, Function.slice, hfind, hf.temp_pointers t ht var hvar',
    map_find_copy_global_to_local, Option.map_some']
  rw [load_temp_space info x (hf.temp_space_length _ hmem), hd]
  apply List.map_congr_left
  intro i hi
  have hi' := List.mem_range.mp hi
  simp [List.getD_eq_getElem?_getD, hi']

theorem live_values_eq (f : Function S) (hf : WellFormed f) (user : Nat → S)
    (t : AddedTerm S) (ht : t ∈ f.terms) :
    t.user_values user = t.user_variables.map (f.live_block user) := by
  have hlen := hf.arguments_length t ht
  conv_rhs => rw [list_eq_map_range_getD t.user_variables, List.map_map, hlen]
  unfold AddedTerm.user_values
  apply List.map_congr_left
  intro var hvar
  have hvar' := List.mem_range.mp hvar
  obtain ⟨info, hfind, hdim⟩ := hf.arguments_ok t ht var hvar'
  have hd : info.dimension.toNat = t.term.variable_dimension var := by
    rw [hdim]; simp
  simp only [Function.comp, Function.live_block, hfind, hd]

theorem evaluate_of_wellFormed [Add S] [Zero S] (f : Function S) (x : VectorXd S)
    (hwf : WellFormed f) :
    (f.evaluate x).1 =
      f.terms.foldl
        (fun value t => value + t.term.evaluate (t.user_variables.map (f.slice x))) 0 := by
  unfold Function.evaluate
  simp only
  have hterms : (f.copy_global_to_local x).terms = f.terms := rfl
  rw [hterms]
  apply foldl_congr_mem
  intro b t ht
  rw [temp_values_eq f hwf x t ht]

/-- C5: in a reachable state, for `x` of length `number_of_scalars`,
`evaluate(x)` is the sum, over the registered terms in registration order, of
the term's value-only function applied to the argument list whose `p`-th entry
is the slice `x[offset(arg_p) .. offset(arg_p) + dim(arg_p))`. -/
theorem evaluate_eq_sum_of_terms [Add S] [Zero S] (f : Function S) (x : VectorXd S)
    (hf : Reachable f) (_hx : x.size = f.number_of_scalars) :
    (f.evaluate x).1 =
      f.terms.foldl
        (fun value t => value + t.term.evaluate (t.user_variables.map (f.slice x))) 0 :=
  evaluate_of_wellFormed f x (reachable_wellFormed f hf)

theorem scenario_reachable [Add S] [Mul S] [Zero S] [One S] :
    Reachable (scenario : Function S) :=
  Reachable.add_term _ _ _ _
    (Reachable.add_variable _ _ _ (Reachable.add_variable _ _ _ Reachable.init))

/-- C5, at the scenario: `a` of dimension 2, `b` of dimension 1,
`f(a, b) = a[0]^2 + a[1] * b[0]` and `x = [1, 2, 3]` give the value 7. -/
theorem evaluate_eq_sum_of_terms_witness :
    ((scenario : Function Int).evaluate scenario_x).1 = 7 :=
  (evaluate_eq_sum_of_terms (scenario : Function Int) scenario_x scenario_reachable rfl).trans rfl

theorem assign_coeff (x : VectorXd S) (i : Nat) (s : S) (p : Nat) :
    (x.assign i s).coeff p = if p = i then s else x.coeff p :=
  rfl

theorem assign_range_coeff (user : Nat → S) (k gi d : Nat) (x : VectorXd S) (p : Nat) :
    ((List.range d).foldl (fun x i => x.assign (gi + i) (user (k + i))) x).coeff p
      = if gi ≤ p ∧ p < gi + d then user (k + (p - gi)) else x.coeff p := by
  induction d with
  | zero =>
    have h0 : ¬ (gi ≤ p ∧ p < gi + 0) := by omega
    rw [if_neg h0]
    rfl
  | succ d ih =>
    rw [List.range_succ, List.foldl_append, List.foldl_cons, List.foldl_nil, assign_coeff, ih]
    by_cases hp : p = gi + d
    · have h1 : gi ≤ p ∧ p < gi + (d + 1) := by omega
      have h2 : p - gi = d := by omega
      rw [if_pos hp, if_pos h1, h2]
    · rw [if_neg hp]
      by_cases h1 : gi ≤ p ∧ p < gi + d
      · have h2 : gi ≤ p ∧ p < gi + (d + 1) := by omega
        rw [if_pos h1, if_pos h2]
      · have h2 : ¬ (gi ≤ p ∧ p < gi + (d + 1)) := by omega
        rw [if_neg h1, if_neg h2]

theorem copy_blocks_coeff_outside (user : Nat → S) (l : List (Key × AddedVariable S))
    (x : VectorXd S) (p : Nat)
    (h : ∀ e ∈ l, ¬ (e.2.global_index ≤ p ∧ p < e.2.global_index + e.2.dimension.toNat)) :
    (l.foldl
      (fun x itr =>
        (List.range itr.2.dimension.toNat).foldl
          (fun x i => x.assign (itr.2.global_index + i) (user (itr.1 + i))) x) x).coeff p
      = x.coeff p := by
  induction l generalizing x with
  | nil => rfl
  | cons hd tl ih =>
    simp only [List.foldl_cons]
    rw [ih _ (fun e he => h e (List.mem_cons_of_mem _ he)), assign_range_coeff,
      if_neg (h hd (List.mem_cons_self _ _))]

theorem copy_blocks_coeff_inside (user : Nat → S) (l : List (Key × AddedVariable S))
    (hl : l.Pairwise ranges_apart) (x : VectorXd S) (e : Key × AddedVariable S) (he : e ∈ l)
    (i : Nat) (hi : i < e.2.dimension.toNat) :
    (l.foldl
      (fun x itr =>
        (List.range itr.2.dimension.toNat).foldl
          (fun x i => x.assign (itr.2.global_index + i) (user (itr.1 + i))) x) x).coeff
        (e.2.global_index + i)
      = user (e.1 + i) := by
  induction l generalizing x with
  | nil => cases he
  | cons hd tl ih =>
    rw [List.pairwise_cons] at hl
    obtain ⟨hhd, htl⟩ := hl
    simp only [List.foldl_cons]
    rcases List.mem_cons.mp he with h | h
    · subst h
      rw [copy_blocks_coeff_outside, assign_range_coeff]
      · have h1 : e.2.global_index ≤ e.2.global_index + i ∧
            e.2.global_index + i < e.2.global_index + e.2.dimension.toNat := by omega
        simp [h1]
      · intro e' he'
        have := hhd e' he'
        unfold ranges_apart at this
        omega
    · exact ih htl _ h

theorem copy_user_to_global_slice (f : Function S) (hf : WellFormed f) (user : Nat → S)
    (x : VectorXd S) (fresh : Fresh S) (key : Key) :
    f.slice (f.copy_user_to_global user x fresh) key = f.live_block user key := by
  unfold Function.slice Function.live_block
  cases hfind : map_find f.vars key with
  | none => rfl
  | some info =>
    simp only
    apply List.map_congr_left
    intro i hi
    exact copy_blocks_coeff_inside user f.vars hf.ranges_disjoint _ (key, info)
      (map_find_mem _ _ _ hfind) i (List.mem_range.mp hi)

/-- C6: in a reachable state, whatever the live variable blocks contain, the
`evaluate()` that reads them directly returns the value of `evaluate(x)` for
the `x` that `copy_user_to_global` produces from them. -/
theorem evaluate_live_eq_evaluate_packed [Add S] [Zero S] (f : Function S) (user : Nat → S)
    (x : VectorXd S) (fresh : Fresh S) (hf : Reachable f) :
    f.evaluate_live user = (f.evaluate (f.copy_user_to_global user x fresh)).1 := by
  have hwf := reachable_wellFormed f hf
  rw [evaluate_of_wellFormed f _ hwf]
  unfold Function.evaluate_live
  apply foldl_congr_mem
  intro b t ht
  rw [live_values_eq f hwf user t ht]
  congr 2
  apply List.map_congr_left
  intro key _
  exact (copy_user_to_global_slice f hwf user x fresh key).symm

/-- C6, at the scenario, with the blocks `a = [1, 2]` and `b = [3]` in the
callers' memory at their addresses. -/
theorem evaluate_live_eq_evaluate_packed_witness :
    (scenario : Function Int).evaluate_live scenario_user = 7 ∧
    ((scenario : Function Int).evaluate
      ((scenario : Function Int).copy_user_to_global scenario_user default scenario_fresh)).1
      = 7 :=
  have h := evaluate_live_eq_evaluate_packed (scenario : Function Int) scenario_user default
    scenario_fresh scenario_reachable
  ⟨rfl, h.symm.trans rfl⟩

end Value

/-! ## The scatter loops -/

section Scatter

variable {S : Type}

theorem foldlM_except_ok {α β ε : Type} (l : List α) (step : β → α → Except ε β)
    (pure_step : β → α → β) (h : ∀ b, ∀ a ∈ l, step b a = Except.ok (pure_step b a)) (b : β) :
    l.foldlM step b = Except.ok (l.foldl pure_step b) := by
  induction l generalizing b with
  | nil => rfl
  | cons a tl ih =>
    rw [List.foldlM_cons, h b a (List.mem_cons_self _ _)]
    exact ih (fun b a ha => h b a (List.mem_cons_of_mem _ ha)) _

theorem foldl_flatMap {α β γ : Type} (l : List α) (F : α → List β) (G : γ → β → γ) (c : γ) :
    (l.flatMap F).foldl G c = l.foldl (fun c a => (F a).foldl G c) c := by
  induction l generalizing c with
  | nil => rfl
  | cons a tl ih => simp [List.flatMap_cons, List.foldl_append, ih]

theorem foldl_pair {α β γ : Type} (l : List α) (G : β → α → β) (H : γ → α → γ) (b : β) (c : γ) :
    l.foldl (fun (out : β × γ) a => (G out.1 a, H out.2 a)) (b, c)
      = (l.foldl G b, l.foldl H c) := by
  induction l generalizing b c with
  | nil => rfl
  | cons a tl ih => simp [ih]

theorem offset_of_global_index (f : Function S) (key : Key) (g : Nat)
    (h : f.global_index key = Except.ok g) : f.offset key = g := by
  simp [Function.offset, h]

theorem global_index_eq_offset (f : Function S) (key : Key)
    (h : ∃ g, f.global_index key = Except.ok g) :
    f.global_index key = Except.ok (f.offset key) := by
  obtain ⟨g, hg⟩ := h
  rw [offset_of_global_index f key g hg, hg]

theorem write_gradient_eq [Add S] [Zero S] (f : Function S) (t : AddedTerm S)
    (h : ∀ var, var < t.term.number_of_variables →
      ∃ g, f.global_index (t.user_variables.getD var 0) = Except.ok g)
    (gradient : VectorXd S) :
    f.write_gradient t gradient
      = Except.ok ((f.term_gradient_entries t).foldl (fun v e => v.add_at e.1 e.2) gradient) := by
  unfold Function.write_gradient Function.term_gradient_entries
  rw [foldl_flatMap]
  apply foldlM_except_ok
  intro b var hvar
  rw [global_index_eq_offset f _ (h var (List.mem_range.mp hvar)), List.foldl_map]
  rfl

theorem write_hessian_eq [Add S] [Zero S] (f : Function S) (t : AddedTerm S)
    (h : ∀ var, var < t.term.number_of_variables →
      ∃ g, f.global_index (t.user_variables.getD var 0) = Except.ok g)
    (hessian : MatrixXd S) :
    f.write_hessian t hessian
      = Except.ok ((f.term_hessian_entries t (t.hessian_at)).foldl
          (fun m e => m.add_at e.row e.col e.value) hessian) := by
  unfold Function.write_hessian Function.term_hessian_entries
  rw [foldl_flatMap]
  apply foldlM_except_ok
  intro b var0 hvar0
  rw [global_index_eq_offset f _ (h var0 (List.mem_range.mp hvar0)), foldl_flatMap]
  simp only [bind, Except.bind]
  apply foldlM_except_ok
  intro b var1 hvar1
  rw [global_index_eq_offset f _ (h var1 (List.mem_range.mp hvar1)), foldl_flatMap]
  simp only [bind, Except.bind, pure, Except.pure, List.foldl_map]

theorem push_triplets_eq (f : Function S) (t : AddedTerm S)
    (h : ∀ var, var < t.term.number_of_variables →
      ∃ g, f.global_index (t.user_variables.getD var 0) = Except.ok g)
    (value : Nat → Nat → Nat → Nat → S) (acc : List (Triplet S) × Nat) :
    f.push_triplets t value acc
      = Except.ok ((f.term_hessian_entries t value).foldl
          (fun acc e => (acc.1 ++ [e], acc.2 + 1)) acc) := by
  unfold Function.push_triplets Function.term_hessian_entries
  rw [foldl_flatMap]
  apply foldlM_except_ok
  intro b var0 hvar0
  rw [global_index_eq_offset f _ (h var0 (List.mem_range.mp hvar0)), foldl_flatMap]
  simp only [bind, Except.bind]
  apply foldlM_except_ok
  intro b var1 hvar1
  rw [global_index_eq_offset f _ (h var1 (List.mem_range.mp hvar1)), foldl_flatMap]
  simp only [bind, Except.bind, pure, Except.pure, List.foldl_map]

theorem push_entries (entries : List (Triplet S)) (acc : List (Triplet S) × Nat) :
    entries.foldl (fun acc e => (acc.1 ++ [e], acc.2 + 1)) acc
      = (acc.1 ++ entries, acc.2 + entries.length) := by
  induction entries generalizing acc with
  | nil => simp
  | cons e tl ih =>
    rw [List.foldl_cons, ih]
    simp only [List.append_assoc, List.singleton_append, List.length_cons]
    congr 1
    omega

theorem scatter_vector_size [Add S] (entries : List (Nat × S)) (v : VectorXd S) :
    (entries.foldl (fun v e => v.add_at e.1 e.2) v).size = v.size := by
  induction entries generalizing v with
  | nil => rfl
  | cons e tl ih => rw [List.foldl_cons, ih]; rfl

theorem scatter_vector_coeff [Add S] (entries : List (Nat × S)) (v : VectorXd S) (g : Nat) :
    (entries.foldl (fun v e => v.add_at e.1 e.2) v).coeff g = sum_at (v.coeff g) entries g := by
  induction entries generalizing v with
  | nil => rfl
  | cons e tl ih =>
    rw [List.foldl_cons, ih]
    unfold sum_at
    by_cases he : e.1 = g
    · simp [List.filter_cons, he, VectorXd.add_at]
    · have hg : ¬ g = e.1 := fun h => he h.symm
      simp [List.filter_cons, he, hg, VectorXd.add_at]

theorem scatter_matrix_dims [Add S] (entries : List (Triplet S)) (m : MatrixXd S) :
    (entries.foldl (fun m e => m.add_at e.row e.col e.value) m).rows = m.rows ∧
    (entries.foldl (fun m e => m.add_at e.row e.col e.value) m).cols = m.cols := by
  induction entries generalizing m with
  | nil => exact ⟨rfl, rfl⟩
  | cons e tl ih => rw [List.foldl_cons]; exact ih _

theorem scatter_matrix_coeff [Add S] (entries : List (Triplet S)) (m : MatrixXd S) (r c : Nat) :
    (entries.foldl (fun m e => m.add_at e.row e.col e.value) m).coeff r c
      = sum_at_position (m.coeff r c) entries r c := by
  induction entries generalizing m with
  | nil => rfl
  | cons e tl ih =>
    rw [List.foldl_cons, ih]
    unfold sum_at_position
    by_cases he : e.row = r ∧ e.col = c
    · obtain ⟨h1, h2⟩ := he
      subst h1 h2
      simp [List.filter_cons, MatrixXd.add_at]
    · have he' : ¬ (r = e.row ∧ c = e.col) := fun h => he ⟨h.1.symm, h.2.symm⟩
      simp only [List.filter_cons, he, decide_False, Bool.false_eq_true, if_false,
        MatrixXd.add_at, he']

end Scatter

/-! ## The derivative evaluations -/

section Derivatives

variable {S : Type}

theorem global_index_copy_global_to_local (f : Function S) (x : VectorXd S) (key : Key) :
    (f.copy_global_to_local x).global_index key = f.global_index key := by
  unfold Function.global_index
  rw [map_find_copy_global_to_local]
  cases map_find f.vars key <;> rfl

theorem global_index_after_map [Add S] [Zero S] (f : Function S) (x : VectorXd S) (key : Key) :
    (f.after_map x).global_index key = f.global_index key :=
  global_index_copy_global_to_local f x key

theorem args_registered_of_wellFormed (f : Function S) (hf : WellFormed f) :
    args_registered f := by
  intro t ht var hvar
  obtain ⟨info, hfind, _⟩ := hf.arguments_ok t ht var hvar
  exact ⟨info.global_index, by simp only [Function.global_index, hfind]⟩

theorem args_registered_after_map [Add S] [Zero S] (f : Function S) (x : VectorXd S)
    (h : args_registered f) : args_registered (f.after_map x) := by
  intro t ht var hvar
  have ht' : t ∈ f.terms.map fun itr => ((f.copy_global_to_local x).evaluate_term itr).2 := ht
  obtain ⟨t0, ht0, rfl⟩ := List.mem_map.mp ht'
  rw [global_index_after_map]
  exact h t0 ht0 var hvar

theorem collect_dense_eq [Add S] [Zero S] (f : Function S) (hreg : args_registered f)
    (t : AddedTerm S) (ht : t ∈ f.terms) (out : VectorXd S × MatrixXd S) :
    f.collect_dense t out = Except.ok
      ((f.term_gradient_entries t).foldl (fun v e => v.add_at e.1 e.2) out.1,
       (f.term_hessian_entries t (t.hessian_at)).foldl
          (fun m e => m.add_at e.row e.col e.value) out.2) := by
  unfold Function.collect_dense
  rw [write_gradient_eq f t (hreg t ht), write_hessian_eq f t (hreg t ht)]
  rfl

theorem collect_sparse_eq [Add S] [Zero S] (f : Function S) (hreg : args_registered f)
    (t : AddedTerm S) (ht : t ∈ f.terms) (out : VectorXd S × List (Triplet S) × Nat) :
    f.collect_sparse t out = Except.ok
      ((f.term_gradient_entries t).foldl (fun v e => v.add_at e.1 e.2) out.1,
       (f.term_hessian_entries t (t.hessian_at)).foldl
          (fun acc e => (acc.1 ++ [e], acc.2 + 1)) out.2) := by
  unfold Function.collect_sparse
  rw [write_gradient_eq f t (hreg t ht), push_triplets_eq f t (hreg t ht)]
  rfl

theorem collect_dense_all [Add S] [Zero S] (f : Function S) (hreg : args_registered f)
    (gradient : VectorXd S) (hessian : MatrixXd S) :
    f.terms.foldlM (fun out itr => f.collect_dense itr out) (gradient, hessian)
      = Except.ok
        (f.gradient_entries.foldl (fun v e => v.add_at e.1 e.2) gradient,
         f.hessian_entries.foldl (fun m e => m.add_at e.row e.col e.value) hessian) := by
  rw [foldlM_except_ok f.terms _
    (fun out t =>
      ((f.term_gradient_entries t).foldl (fun v e => v.add_at e.1 e.2) out.1,
       (f.term_hessian_entries t (t.hessian_at)).foldl
          (fun m e => m.add_at e.row e.col e.value) out.2))
    (fun out t ht => collect_dense_eq f hreg t ht out)]
  rw [foldl_pair f.terms
    (fun (v : VectorXd S) (t : AddedTerm S) =>
      (f.term_gradient_entries t).foldl (fun (v : VectorXd S) e => v.add_at e.1 e.2) v)
    (fun (m : MatrixXd S) (t : AddedTerm S) => (f.term_hessian_entries t (t.hessian_at)).foldl
      (fun (m : MatrixXd S) e => m.add_at e.row e.col e.value) m)]
  unfold Function.gradient_entries Function.hessian_entries
  rw [foldl_flatMap, foldl_flatMap]

theorem collect_sparse_all [Add S] [Zero S] (f : Function S) (hreg : args_registered f)
    (gradient : VectorXd S) (acc : List (Triplet S) × Nat) :
    f.terms.foldlM (fun out itr => f.collect_sparse itr out) (gradient, acc)
      = Except.ok
        (f.gradient_entries.foldl (fun v e => v.add_at e.1 e.2) gradient,
         acc.1 ++ f.hessian_entries, acc.2 + f.hessian_entries.length) := by
  rw [foldlM_except_ok f.terms _
    (fun out t =>
      ((f.term_gradient_entries t).foldl (fun v e => v.add_at e.1 e.2) out.1,
       (f.term_hessian_entries t (t.hessian_at)).foldl
          (fun acc e => (acc.1 ++ [e], acc.2 + 1)) out.2))
    (fun out t ht => collect_sparse_eq f hreg t ht out)]
  rw [foldl_pair f.terms
    (fun (v : VectorXd S) (t : AddedTerm S) =>
      (f.term_gradient_entries t).foldl (fun (v : VectorXd S) e => v.add_at e.1 e.2) v)
    (fun (acc : List (Triplet S) × Nat) (t : AddedTerm S) =>
      (f.term_hessian_entries t (t.hessian_at)).foldl
        (fun (acc : List (Triplet S) × Nat) e => (acc.1 ++ [e], acc.2 + 1)) acc)]
  unfold Function.gradient_entries Function.hessian_entries
  rw [← foldl_flatMap, ← foldl_flatMap, push_entries]

theorem evaluate_dense_eq [Add S] [Mul S] [Zero S] (f : Function S) (x : VectorXd S)
    (gradient : VectorXd S) (hessian : MatrixXd S) (fresh : Fresh S)
    (hreg : args_registered f) :
    f.evaluate_dense x gradient hessian fresh = Except.ok
      ⟨(f.copy_global_to_local x).evaluate_terms.1,
       (f.after_map x).gradient_entries.foldl (fun v e => v.add_at e.1 e.2)
         ((gradient.resize f.number_of_scalars fresh.vector).setConstant 0),
       (f.after_map x).hessian_entries.foldl (fun m e => m.add_at e.row e.col e.value)
         ((hessian.resize f.number_of_scalars f.number_of_scalars fresh.matrix).scale 0),
       f.after_map x⟩ := by
  unfold Function.evaluate_dense
  simp only [bind, Except.bind]
  rw [collect_dense_all (f.after_map x) (args_registered_after_map f x hreg)]
  rfl

theorem evaluate_sparse_eq [Add S] [Zero S] (f : Function S) (x : VectorXd S)
    (gradient : VectorXd S) (hessian : SparseMatrix S) (fresh : Fresh S)
    (hreg : args_registered f) :
    f.evaluate_sparse x gradient hessian fresh = Except.ok
      ⟨(f.copy_global_to_local x).evaluate_terms.1,
       (f.after_map x).gradient_entries.foldl (fun v e => v.add_at e.1 e.2)
         ((gradient.resize f.number_of_scalars fresh.vector).setConstant 0),
       hessian.setFromTriplets (f.after_map x).hessian_entries,
       { f.after_map x with
          number_of_hessian_elements := (f.after_map x).hessian_entries.length }⟩ := by
  unfold Function.evaluate_sparse
  simp only [bind, Except.bind]
  rw [collect_sparse_all (f.after_map x) (args_registered_after_map f x hreg)]
  simp [pure, Except.pure]
  rfl

end Derivatives

section Gradient

variable {S : Type}

theorem sum_at_of_no_entry [Add S] (init : S) (entries : List (Nat × S)) (g : Nat)
    (h : ∀ e ∈ entries, e.1 ≠ g) : sum_at init entries g = init := by
  unfold sum_at
  have : (entries.filter fun e => e.1 = g) = [] := by
    rw [List.filter_eq_nil_iff]
    intro e he
    simpa using h e he
  rw [this]
  rfl

/-- C7: in a reachable state, for `x` of length `number_of_scalars`, both
derivative evaluations (dense and sparse Hessian) return a gradient of length
`number_of_scalars` whose entry `g` is the sum, over every term, every argument
position `v` and every component `i` with `offset(arg_v) + i = g`, of the
entry `i` of the term's local gradient block `v`, in the state `after_map` in
which the terms have filled their blocks; contributions to the same entry add
up, and an entry that receives no contribution is 0. -/
theorem gradient_is_scattered_sum [Add S] [Mul S] [Zero S] (f : Function S) (x : VectorXd S)
    (gradient : VectorXd S) (dense : MatrixXd S) (sparse : SparseMatrix S) (fresh : Fresh S)
    (hf : Reachable f) (_hx : x.size = f.number_of_scalars) :
    (∃ r, f.evaluate_dense x gradient dense fresh = Except.ok r ∧
      r.gradient.size = f.number_of_scalars ∧
      (∀ g, r.gradient.coeff g = sum_at 0 (f.after_map x).gradient_entries g) ∧
      (∀ g, (∀ e ∈ (f.after_map x).gradient_entries, e.1 ≠ g) → r.gradient.coeff g = 0)) ∧
    (∃ r, f.evaluate_sparse x gradient sparse fresh = Except.ok r ∧
      r.gradient.size = f.number_of_scalars ∧
      (∀ g, r.gradient.coeff g = sum_at 0 (f.after_map x).gradient_entries g) ∧
      (∀ g, (∀ e ∈ (f.after_map x).gradient_entries, e.1 ≠ g) → r.gradient.coeff g = 0)) := by
  have hreg := args_registered_of_wellFormed f (reachable_wellFormed f hf)
  have hsize : ((f.after_map x).gradient_entries.foldl (fun v e => v.add_at e.1 e.2)
      ((gradient.resize f.number_of_scalars fresh.vector).setConstant 0)).size
        = f.number_of_scalars := by
    rw [scatter_vector_size]
    unfold VectorXd.setConstant VectorXd.resize
    split <;> simp_all
  have hcoeff : ∀ g, ((f.after_map x).gradient_entries.foldl (fun v e => v.add_at e.1 e.2)
      ((gradient.resize f.number_of_scalars fresh.vector).setConstant 0)).coeff g
        = sum_at 0 (f.after_map x).gradient_entries g := by
    intro g
    rw [scatter_vector_coeff]
    rfl
  have hzero : ∀ g, (∀ e ∈ (f.after_map x).gradient_entries, e.1 ≠ g) →
      ((f.after_map x).gradient_entries.foldl (fun v e => v.add_at e.1 e.2)
        ((gradient.resize f.number_of_scalars fresh.vector).setConstant 0)).coeff g = 0 := by
    intro g hg
    rw [hcoeff g, sum_at_of_no_entry 0 _ g hg]
  exact ⟨⟨_, evaluate_dense_eq f x gradient dense fresh hreg, hsize, hcoeff, hzero⟩,
    ⟨_, evaluate_sparse_eq f x gradient sparse fresh hreg, hsize, hcoeff, hzero⟩⟩

/-- C7, at the scenario: both evaluations return the gradient `[2, 3, 2]`. -/
theorem gradient_is_scattered_sum_witness :
    (∃ r, (scenario : Function Int).evaluate_dense scenario_x default default scenario_fresh
        = Except.ok r ∧
      r.gradient.size = 3 ∧ r.gradient.coeff 0 = 2 ∧ r.gradient.coeff 1 = 3 ∧
      r.gradient.coeff 2 = 2) ∧
    (∃ r, (scenario : Function Int).evaluate_sparse scenario_x default ⟨3, 3, []⟩ scenario_fresh
        = Except.ok r ∧
      r.gradient.size = 3 ∧ r.gradient.coeff 0 = 2 ∧ r.gradient.coeff 1 = 3 ∧
      r.gradient.coeff 2 = 2) := by
  have h := gradient_is_scattered_sum (scenario : Function Int) scenario_x default default
    ⟨3, 3, []⟩ scenario_fresh scenario_reachable rfl
  obtain ⟨⟨r, hr, hs, hc, _⟩, ⟨r', hr', hs', hc', _⟩⟩ := h
  exact ⟨⟨r, hr, hs, (hc 0).trans rfl, (hc 1).trans rfl, (hc 2).trans rfl⟩,
    ⟨r', hr', hs', (hc' 0).trans rfl, (hc' 1).trans rfl, (hc' 2).trans rfl⟩⟩

theorem create_sparse_hessian_eq [One S] (f : Function S) (H : SparseMatrix S)
    (hreg : args_registered f) :
    f.create_sparse_hessian H = Except.ok
      (⟨f.number_of_scalars, f.number_of_scalars, f.pattern_entries⟩,
       { f with number_of_hessian_elements := f.pattern_entries.length }) := by
  unfold Function.create_sparse_hessian
  rw [foldlM_except_ok f.terms _
    (fun (acc : List (Triplet S) × Nat) (t : AddedTerm S) =>
      (f.term_hessian_entries t (fun _ _ _ _ => 1)).foldl
        (fun (acc : List (Triplet S) × Nat) e => (acc.1 ++ [e], acc.2 + 1)) acc)
    (fun acc t ht => push_triplets_eq f t (hreg t ht) _ acc)]
  rw [← foldl_flatMap, push_entries]
  simp [bind, Except.bind, pure, Except.pure, SparseMatrix.resize, SparseMatrix.setFromTriplets,
    Function.pattern_entries]

theorem mem_term_hessian_entries (f : Function S) (t : AddedTerm S)
    (value : Nat → Nat → Nat → Nat → S) (e : Triplet S) :
    e ∈ f.term_hessian_entries t value ↔
      ∃ var0 var1 i j, var0 < t.term.number_of_variables ∧ var1 < t.term.number_of_variables ∧
        i < t.term.variable_dimension var0 ∧ j < t.term.variable_dimension var1 ∧
        e = ⟨i + f.offset (t.user_variables.getD var0 0),
             j + f.offset (t.user_variables.getD var1 0), value var0 var1 i j⟩ := by
  unfold Function.term_hessian_entries
  simp only [List.mem_flatMap, List.mem_map, List.mem_range]
  constructor
  · rintro ⟨var0, h0, var1, h1, i, hi, j, hj, rfl⟩
    exact ⟨var0, var1, i, j, h0, h1, hi, hj, rfl⟩
  · rintro ⟨var0, var1, i, j, h0, h1, hi, hj, rfl⟩
    exact ⟨var0, h0, var1, h1, i, hi, j, hj, rfl⟩

/-- C10: in a reachable state `create_sparse_hessian` returns a matrix sized
`number_of_scalars x number_of_scalars`; every triplet it emits has the value
`1.0`; and the positions of the triplets are exactly the positions
`(offset(arg_i) + a, offset(arg_j) + b)` with `a < dim(i)`, `b < dim(j)`, for
the ordered argument pairs `(i, j)` of the terms. -/
theorem create_sparse_hessian_pattern [One S] [Zero S] (f : Function S) (H : SparseMatrix S)
    (hf : Reachable f) :
    ∃ r, f.create_sparse_hessian H = Except.ok r ∧
      r.1.rows = f.number_of_scalars ∧ r.1.cols = f.number_of_scalars ∧
      (∀ t ∈ r.1.triplets, t.value = 1) ∧
      ∀ row col, (∃ t ∈ r.1.triplets, t.row = row ∧ t.col = col) ↔
        ∃ itr ∈ f.terms, ∃ i j a b gi gj,
          i < itr.term.number_of_variables ∧ j < itr.term.number_of_variables ∧
          a < itr.term.variable_dimension i ∧ b < itr.term.variable_dimension j ∧
          f.global_index (itr.user_variables.getD i 0) = Except.ok gi ∧
          f.global_index (itr.user_variables.getD j 0) = Except.ok gj ∧
          row = gi + a ∧ col = gj + b := by
  have hreg := args_registered_of_wellFormed f (reachable_wellFormed f hf)
  refine ⟨_, create_sparse_hessian_eq f H hreg, rfl, rfl, ?_, ?_⟩
  · intro t ht
    simp only [Function.pattern_entries, List.mem_flatMap] at ht
    obtain ⟨itr, _, hmem⟩ := ht
    obtain ⟨_, _, _, _, _, _, _, _, rfl⟩ := (mem_term_hessian_entries f itr _ t).mp hmem
    rfl
  · intro row col
    simp only [Function.pattern_entries, List.mem_flatMap]
    constructor
    · rintro ⟨t, ⟨itr, hitr, hmem⟩, rfl, rfl⟩
      obtain ⟨i, j, a, b, hi, hj, ha, hb, rfl⟩ := (mem_term_hessian_entries f itr _ t).mp hmem
      exact ⟨itr, hitr, i, j, a, b, _, _, hi, hj, ha, hb,
        global_index_eq_offset f _ (hreg itr hitr i hi),
        global_index_eq_offset f _ (hreg itr hitr j hj), Nat.add_comm _ _, Nat.add_comm _ _⟩
    · rintro ⟨itr, hitr, i, j, a, b, gi, gj, hi, hj, ha, hb, hgi, hgj, rfl, rfl⟩
      refine ⟨⟨a + f.offset (itr.user_variables.getD i 0),
        b + f.offset (itr.user_variables.getD j 0), 1⟩, ⟨itr, hitr, ?_⟩, ?_, ?_⟩
      · exact (mem_term_hessian_entries f itr _ _).mpr ⟨i, j, a, b, hi, hj, ha, hb, rfl⟩
      · rw [offset_of_global_index f _ gi hgi]; exact Nat.add_comm _ _
      · rw [offset_of_global_index f _ gj hgj]; exact Nat.add_comm _ _

/-- C10, at the scenario: the matrix is `3 x 3` and the nine emitted triplets
cover every position, each once, all with the value 1. -/
theorem create_sparse_hessian_pattern_witness :
    ∃ r, (scenario : Function Int).create_sparse_hessian ⟨0, 0, []⟩ = Except.ok r ∧
      r.1.rows = 3 ∧ r.1.cols = 3 ∧
      r.1.triplets.map (fun t => (t.row, t.col, t.value)) =
        [(0, 0, 1), (0, 1, 1), (1, 0, 1), (1, 1, 1), (0, 2, 1), (1, 2, 1),
         (2, 0, 1), (2, 1, 1), (2, 2, 1)] := by
  obtain ⟨r, hr, hrows, hcols, _, _⟩ :=
    create_sparse_hessian_pattern (scenario : Function Int) ⟨0, 0, []⟩ scenario_reachable
  refine ⟨r, hr, hrows, hcols, ?_⟩
  have hr' : (scenario : Function Int).create_sparse_hessian ⟨0, 0, []⟩
      = Except.ok (⟨3, 3, (scenario : Function Int).pattern_entries⟩,
          { (scenario : Function Int) with number_of_hessian_elements := 9 }) := rfl
  rw [hr'] at hr
  cases hr
  rfl

end Gradient

section DenseHessian

variable {S : Type}

theorem dense_hessian_eq_sum [Add S] [Mul S] [Zero S] (f : Function S) (x : VectorXd S)
    (gradient : VectorXd S) (hessian : MatrixXd S) (fresh : Fresh S) (hf : Reachable f) :
    ∃ r, f.evaluate_dense x gradient hessian fresh = Except.ok r ∧
      r.hessian.rows = f.number_of_scalars ∧ r.hessian.cols = f.number_of_scalars ∧
      ∀ row col, r.hessian.coeff row col =
        sum_at_position
          ((hessian.resize f.number_of_scalars f.number_of_scalars fresh.matrix).coeff row col * 0)
          (f.after_map x).hessian_entries row col := by
  have hreg := args_registered_of_wellFormed f (reachable_wellFormed f hf)
  refine ⟨_, evaluate_dense_eq f x gradient hessian fresh hreg, ?_, ?_, ?_⟩
  · rw [(scatter_matrix_dims _ _).1]
    unfold MatrixXd.scale MatrixXd.resize
    split <;> simp_all
  · rw [(scatter_matrix_dims _ _).2]
    unfold MatrixXd.scale MatrixXd.resize
    split <;> simp_all
  · intro row col
    rw [scatter_matrix_coeff]
    rfl

theorem dense_hessian_of_mul_zero [Add S] [Mul S] [Zero S] (hzero : ∀ s : S, s * 0 = 0)
    (f : Function S) (x : VectorXd S) (gradient : VectorXd S) (hessian : MatrixXd S)
    (sparse : SparseMatrix S) (fresh : Fresh S) (hf : Reachable f) :
    ∃ rd rs, f.evaluate_dense x gradient hessian fresh = Except.ok rd ∧
      f.evaluate_sparse x gradient sparse fresh = Except.ok rs ∧
      (∀ row col, rd.hessian.coeff row col
        = sum_at_position 0 (f.after_map x).hessian_entries row col) ∧
      (∀ row col, rd.hessian.coeff row col = rs.hessian.coeff row col) := by
  have hreg := args_registered_of_wellFormed f (reachable_wellFormed f hf)
  obtain ⟨rd, hrd, _, _, hcoeff⟩ := dense_hessian_eq_sum f x gradient hessian fresh hf
  refine ⟨rd, _, hrd, evaluate_sparse_eq f x gradient sparse fresh hreg, ?_, ?_⟩
  · intro row col
    rw [hcoeff, hzero]
  · intro row col
    rw [hcoeff, hzero]
    rfl

/-- C8, at a failing input: the scenario with an unused third variable `c`,
`x = [1, 2, 3, 4]`, and a `4 x 4` matrix passed in whose coefficients are NaN.
The contributions to position `(1, 2)` sum to 1 and no term contributes to
position `(3, 3)`, yet the returned Hessian holds NaN at both. -/
theorem dense_hessian_keeps_nan :
    ∃ r, (scenario_unused : Function Double).evaluate_dense scenario_unused_x default
        (nan_matrix 4 4) scenario_fresh = Except.ok r ∧
      ((scenario_unused : Function Double).after_map scenario_unused_x).hessian_entries.map
          (fun t => (t.row, t.col, t.value)) =
        [(0, 0, Double.num 2), (0, 1, Double.num 0), (1, 0, Double.num 0),
         (1, 1, Double.num 0), (0, 2, Double.num 0), (1, 2, Double.num 1),
         (2, 0, Double.num 0), (2, 1, Double.num 1), (2, 2, Double.num 0)] ∧
      r.hessian.coeff 1 2 = Double.nan ∧
      r.hessian.coeff 3 3 = Double.nan :=
  ⟨_, rfl, rfl, rfl, rfl⟩

/-- C9, at a failing input: the scenario with `x = [1, 2, 3]` and a `3 x 3`
matrix passed in whose coefficients are NaN.  Position `(1, 2)` occurs in the
triplet list of the sparse evaluation and its triplets sum to 1, while the
dense evaluation returns NaN there. -/
theorem dense_differs_from_sparse_on_nan :
    ∃ rd rs, (scenario : Function Double).evaluate_dense scenario_x default (nan_matrix 3 3)
        scenario_fresh = Except.ok rd ∧
      (scenario : Function Double).evaluate_sparse scenario_x default ⟨3, 3, []⟩ scenario_fresh
        = Except.ok rs ∧
      rs.hessian.triplets.map (fun t => (t.row, t.col, t.value)) =
        [(0, 0, Double.num 2), (0, 1, Double.num 0), (1, 0, Double.num 0),
         (1, 1, Double.num 0), (0, 2, Double.num 0), (1, 2, Double.num 1),
         (2, 0, Double.num 0), (2, 1, Double.num 1), (2, 2, Double.num 0)] ∧
      rs.hessian.coeff 1 2 = Double.num 1 ∧
      rd.hessian.coeff 1 2 = Double.nan :=
  ⟨_, _, rfl, rfl, rfl, rfl, rfl⟩

end DenseHessian

/-! ## Lookups during assembly, and the frame of the registrations -/

section Lookups

variable {S : Type}

theorem registered_of_mem_arguments (f : Function S) (hf : WellFormed f) (t : AddedTerm S)
    (ht : t ∈ f.terms) (key : Key) (hkey : key ∈ t.user_variables) :
    ∃ info, map_find f.vars key = some info := by
  obtain ⟨var, hvar, hget⟩ := List.getElem_of_mem hkey
  have hvar' : var < t.term.number_of_variables := (hf.arguments_length t ht) ▸ hvar
  obtain ⟨info, hfind, _⟩ := hf.arguments_ok t ht var hvar'
  have hD : t.user_variables.getD var 0 = key := by
    rw [List.getD_eq_getElem?_getD, List.getElem?_eq_getElem hvar, hget]
    rfl
  rw [hD] at hfind
  exact ⟨info, hfind⟩

/-- C14: in every state reachable by `add_variable` and `add_term` calls,
whether they returned or threw, every key stored in a term's `user_variables`
is a registered variable and has a `global_index`; the dense evaluation, the
sparse evaluation and `create_sparse_hessian` return and so never reach the
"Could not find variable" failure. -/
theorem assembly_finds_every_variable [Add S] [Mul S] [Zero S] [One S] (f : Function S)
    (x gradient : VectorXd S) (dense : MatrixXd S) (sparse H : SparseMatrix S)
    (fresh : Fresh S) (hf : Reachable f) :
    (∀ t ∈ f.terms, ∀ key ∈ t.user_variables,
      (∃ info, map_find f.vars key = some info) ∧ ∃ g, f.global_index key = Except.ok g) ∧
    (∃ r, f.evaluate_dense x gradient dense fresh = Except.ok r) ∧
    (∃ r, f.evaluate_sparse x gradient sparse fresh = Except.ok r) ∧
    (∃ r, f.create_sparse_hessian H = Except.ok r) := by
  have hwf := reachable_wellFormed f hf
  have hreg := args_registered_of_wellFormed f hwf
  refine ⟨?_, ⟨_, evaluate_dense_eq f x gradient dense fresh hreg⟩,
    ⟨_, evaluate_sparse_eq f x gradient sparse fresh hreg⟩,
    ⟨_, create_sparse_hessian_eq f H hreg⟩⟩
  intro t ht key hkey
  obtain ⟨info, hfind⟩ := registered_of_mem_arguments f hwf t ht key hkey
  exact ⟨⟨info, hfind⟩, info.global_index, by simp only [Function.global_index, hfind]⟩

/-- C14, at the scenario: both arguments of the term have a `global_index`. -/
theorem assembly_finds_every_variable_witness :
    (scenario : Function Int).global_index scenario_a = Except.ok 0 ∧
    (scenario : Function Int).global_index scenario_b = Except.ok 2 ∧
    (∃ r, (scenario : Function Int).evaluate_dense scenario_x default default scenario_fresh
      = Except.ok r) ∧
    (∃ r, (scenario : Function Int).evaluate_sparse scenario_x default ⟨3, 3, []⟩
      scenario_fresh = Except.ok r) ∧
    (∃ r, (scenario : Function Int).create_sparse_hessian ⟨0, 0, []⟩ = Except.ok r) :=
  have h := assembly_finds_every_variable (scenario : Function Int) scenario_x default default
    ⟨3, 3, []⟩ ⟨0, 0, []⟩ scenario_fresh scenario_reachable
  ⟨rfl, rfl, h.2.1, h.2.2.1, h.2.2.2⟩

/-- C15: for any state and any registered key `k`, a later `add_variable` or
`add_term` call, whatever its arguments and whether it returns or throws,
leaves `global_index(k)` and the stored dimension of `k` unchanged and does not
decrease `number_of_scalars`. -/
theorem registration_keeps_offsets [Zero S] (f : Function S) (k : Key) (info : AddedVariable S)
    (h : map_find f.vars k = some info) :
    (∀ key dimension,
      (f.add_variable key dimension).state.global_index k = f.global_index k ∧
      (map_find (f.add_variable key dimension).state.vars k).map (fun v => v.dimension)
        = some info.dimension ∧
      f.number_of_scalars ≤ (f.add_variable key dimension).state.number_of_scalars) ∧
    (∀ term arguments fresh,
      (f.add_term term arguments fresh).state.global_index k = f.global_index k ∧
      (map_find (f.add_term term arguments fresh).state.vars k).map (fun v => v.dimension)
        = some info.dimension ∧
      f.number_of_scalars ≤ (f.add_term term arguments fresh).state.number_of_scalars) := by
  constructor
  · intro key dimension
    have hfind : map_find (f.add_variable key dimension).state.vars k = some info ∧
        f.number_of_scalars ≤ (f.add_variable key dimension).state.number_of_scalars := by
      unfold Function.add_variable
      cases hkey : map_find f.vars key with
      | some var_info =>
        simp only
        split <;> exact ⟨h, le_refl _⟩
      | none =>
        have hne : k ≠ key := by
          intro he
          rw [he, hkey] at h
          cases h
        simp only
        split
        · exact ⟨by simp only [map_find_insert, hne, if_false]; exact h, le_refl _⟩
        · exact ⟨by simp only [map_find_insert, hne, if_false]; exact h, Nat.le_add_right _ _⟩
    refine ⟨?_, ?_, hfind.2⟩
    · simp only [Function.global_index, hfind.1, h]
    · rw [hfind.1]; rfl
  · intro term arguments fresh
    have hvars : (f.add_term term arguments fresh).state.vars = f.vars ∧
        (f.add_term term arguments fresh).state.number_of_scalars = f.number_of_scalars := by
      unfold Function.add_term
      split
      · exact ⟨rfl, rfl⟩
      · split <;> exact ⟨rfl, rfl⟩
    refine ⟨?_, ?_, le_of_eq hvars.2.symm⟩
    · simp only [Function.global_index, hvars.1]
    · rw [hvars.1, h]; rfl

/-- C15, at the scenario: registering a new variable of dimension 4 and adding
the term once more leave the offset of `b` at 2. -/
theorem registration_keeps_offsets_witness :
    ((scenario : Function Int).add_variable 30 4).state.global_index scenario_b = Except.ok 2 ∧
    ((scenario : Function Int).add_variable 30 4).state.number_of_scalars = 7 ∧
    ((scenario : Function Int).add_term scenario_term [scenario_a, scenario_b]
      scenario_fresh).state.global_index scenario_b = Except.ok 2 :=
  have h := registration_keeps_offsets (scenario : Function Int) scenario_b ⟨1, 2, [0]⟩ rfl
  ⟨(h.1 30 4).1.trans rfl, rfl,
   (h.2 scenario_term [scenario_a, scenario_b] scenario_fresh).1.trans rfl⟩

end Lookups

/-! ## Where the scatter loops write -/

section Indices

variable {S : Type}

theorem offset_after_map [Add S] [Zero S] (f : Function S) (x : VectorXd S) (key : Key) :
    (f.after_map x).offset key = f.offset key := by
  unfold Function.offset
  rw [global_index_after_map]

theorem mem_after_map_terms [Add S] [Zero S] (f : Function S) (x : VectorXd S)
    (t' : AddedTerm S) (ht' : t' ∈ (f.after_map x).terms) :
    ∃ t ∈ f.terms, t'.term = t.term ∧ t'.user_variables = t.user_variables := by
  have h : t' ∈ f.terms.map fun itr => ((f.copy_global_to_local x).evaluate_term itr).2 := ht'
  obtain ⟨t, ht, rfl⟩ := List.mem_map.mp h
  exact ⟨t, ht, rfl, rfl⟩

theorem argument_in_range (f : Function S) (hf : WellFormed f) (t : AddedTerm S)
    (ht : t ∈ f.terms) (var i : Nat) (hvar : var < t.term.number_of_variables)
    (hi : i < t.term.variable_dimension var) :
    t.user_variables.getD var 0 ∈ t.user_variables ∧
    f.in_range_of (t.user_variables.getD var 0) (f.offset (t.user_variables.getD var 0) + i) ∧
    f.offset (t.user_variables.getD var 0) + i < f.number_of_scalars := by
  obtain ⟨info, hfind, hdim⟩ := hf.arguments_ok t ht var hvar
  have hd : info.dimension.toNat = t.term.variable_dimension var := by
    rw [hdim]; simp
  have hoff : f.offset (t.user_variables.getD var 0) = info.global_index := by
    simp only [Function.offset, Function.global_index, hfind]
  have hlen : var < t.user_variables.length := (hf.arguments_length t ht).symm ▸ hvar
  have hbelow := hf.ranges_below _ (map_find_mem _ _ _ hfind)
  simp only at hbelow
  refine ⟨?_, ⟨info, hfind, ?_, ?_⟩, ?_⟩
  · rw [List.getD_eq_getElem?_getD, List.getElem?_eq_getElem hlen]
    exact List.getElem_mem hlen
  · rw [hoff]; exact Nat.le_add_right _ _
  · rw [hoff, hd]; omega
  · rw [hoff]; omega

theorem mem_term_gradient_entries [Zero S] (f : Function S) (t : AddedTerm S) (e : Nat × S) :
    e ∈ f.term_gradient_entries t ↔
      ∃ var i, var < t.term.number_of_variables ∧ i < t.term.variable_dimension var ∧
        e = (f.offset (t.user_variables.getD var 0) + i, t.gradient_at var i) := by
  unfold Function.term_gradient_entries
  simp only [List.mem_flatMap, List.mem_map, List.mem_range]
  constructor
  · rintro ⟨var, hvar, i, hi, rfl⟩
    exact ⟨var, i, hvar, hi, rfl⟩
  · rintro ⟨var, i, hvar, hi, rfl⟩
    exact ⟨var, hvar, i, hi, rfl⟩

theorem range_key_unique (f : Function S) (hf : WellFormed f) (k k' : Key) (p : Nat)
    (h : f.in_range_of k p) (h' : f.in_range_of k' p) : k = k' := by
  obtain ⟨info, hfind, hlo, hhi⟩ := h
  obtain ⟨info', hfind', hlo', hhi'⟩ := h'
  by_contra hne
  have hne' : (k, info) ≠ (k', info') := fun he => hne (congrArg Prod.fst he)
  have := hf.ranges_disjoint.forall (fun a b hab => ranges_apart_symm a b hab)
    (map_find_mem _ _ _ hfind) (map_find_mem _ _ _ hfind') hne'
  unfold ranges_apart at this
  simp only at this
  omega

theorem hessian_entry_of_term [Add S] [Zero S] (f : Function S) (hf : WellFormed f)
    (x : VectorXd S) (e : Triplet S) (he : e ∈ (f.after_map x).hessian_entries) :
    ∃ t ∈ f.terms, ∃ k0 ∈ t.user_variables, ∃ k1 ∈ t.user_variables,
      f.in_range_of k0 e.row ∧ f.in_range_of k1 e.col ∧
      e.row < f.number_of_scalars ∧ e.col < f.number_of_scalars := by
  simp only [Function.hessian_entries, List.mem_flatMap] at he
  obtain ⟨t', ht', hmem⟩ := he
  obtain ⟨t, ht, hterm, hargs⟩ := mem_after_map_terms f x t' ht'
  obtain ⟨var0, var1, i, j, h0, h1, hi, hj, rfl⟩ :=
    (mem_term_hessian_entries _ t' _ e).mp hmem
  rw [hterm] at h0 h1 hi hj
  obtain ⟨m0, r0, b0⟩ := argument_in_range f hf t ht var0 i h0 hi
  obtain ⟨m1, r1, b1⟩ := argument_in_range f hf t ht var1 j h1 hj
  refine ⟨t, ht, _, m0, _, m1, ?_, ?_, ?_, ?_⟩ <;>
    simp only [offset_after_map, hargs, Nat.add_comm i, Nat.add_comm j] <;> assumption

theorem pattern_entry_in_range [One S] (f : Function S) (hf : WellFormed f)
    (e : Triplet S) (he : e ∈ f.pattern_entries) :
    e.row < f.number_of_scalars ∧ e.col < f.number_of_scalars := by
  simp only [Function.pattern_entries, List.mem_flatMap] at he
  obtain ⟨t, ht, hmem⟩ := he
  obtain ⟨var0, var1, i, j, h0, h1, hi, hj, rfl⟩ := (mem_term_hessian_entries _ t _ e).mp hmem
  obtain ⟨_, _, b0⟩ := argument_in_range f hf t ht var0 i h0 hi
  obtain ⟨_, _, b1⟩ := argument_in_range f hf t ht var1 j h1 hj
  constructor <;> simp only [Nat.add_comm i, Nat.add_comm j] <;> assumption

theorem gradient_entry_in_range [Add S] [Zero S] (f : Function S) (hf : WellFormed f)
    (x : VectorXd S) (e : Nat × S) (he : e ∈ (f.after_map x).gradient_entries) :
    e.1 < f.number_of_scalars := by
  simp only [Function.gradient_entries, List.mem_flatMap] at he
  obtain ⟨t', ht', hmem⟩ := he
  obtain ⟨t, ht, hterm, hargs⟩ := mem_after_map_terms f x t' ht'
  obtain ⟨var, i, hvar, hi, rfl⟩ := (mem_term_gradient_entries _ t' e).mp hmem
  rw [hterm] at hvar hi
  obtain ⟨_, _, b⟩ := argument_in_range f hf t ht var i hvar hi
  simp only [offset_after_map, hargs]
  exact b

end Indices

section IndexProperties

variable {S : Type}

/-- C19: in every reachable state (negative dimensions, which make
`add_variable` throw, included) every index of the scatter loops is below
`number_of_scalars`: the dense evaluation returns the gradient and Hessian
obtained by the `+=` statements at the listed gradient indices and Hessian
positions, all of which are in range; the triplets emitted by the sparse
evaluation and by `create_sparse_hessian` have row and column in range; and
every index `global_index + i`, `i < dimension`, read by
`copy_global_to_local` is in range. -/
theorem scatter_indices_in_range [Add S] [Mul S] [Zero S] [One S] (f : Function S)
    (x gradient : VectorXd S) (dense : MatrixXd S) (sparse H : SparseMatrix S)
    (fresh : Fresh S) (hf : Reachable f) :
    (∃ r, f.evaluate_dense x gradient dense fresh = Except.ok r ∧
      r.gradient = (f.after_map x).gradient_entries.foldl (fun v e => v.add_at e.1 e.2)
        ((gradient.resize f.number_of_scalars fresh.vector).setConstant 0) ∧
      r.hessian = (f.after_map x).hessian_entries.foldl
        (fun m e => m.add_at e.row e.col e.value)
        ((dense.resize f.number_of_scalars f.number_of_scalars fresh.matrix).scale 0)) ∧
    (∀ e ∈ (f.after_map x).gradient_entries, e.1 < f.number_of_scalars) ∧
    (∀ e ∈ (f.after_map x).hessian_entries,
      e.row < f.number_of_scalars ∧ e.col < f.number_of_scalars) ∧
    (∃ r, f.evaluate_sparse x gradient sparse fresh = Except.ok r ∧
      r.gradient = (f.after_map x).gradient_entries.foldl (fun v e => v.add_at e.1 e.2)
        ((gradient.resize f.number_of_scalars fresh.vector).setConstant 0) ∧
      ∀ e ∈ r.hessian.triplets, e.row < f.number_of_scalars ∧ e.col < f.number_of_scalars) ∧
    (∃ r, f.create_sparse_hessian H = Except.ok r ∧
      ∀ e ∈ r.1.triplets, e.row < f.number_of_scalars ∧ e.col < f.number_of_scalars) ∧
    (∀ itr ∈ f.vars, ∀ i : Nat, (i : Int) < itr.2.dimension →
      itr.2.global_index + i < f.number_of_scalars) := by
  have hwf := reachable_wellFormed f hf
  have hreg := args_registered_of_wellFormed f hwf
  have hhess : ∀ e ∈ (f.after_map x).hessian_entries,
      e.row < f.number_of_scalars ∧ e.col < f.number_of_scalars := by
    intro e he
    obtain ⟨_, _, _, _, _, _, _, _, hr, hc⟩ := hessian_entry_of_term f hwf x e he
    exact ⟨hr, hc⟩
  refine ⟨⟨_, evaluate_dense_eq f x gradient dense fresh hreg, rfl, rfl⟩,
    fun e he => gradient_entry_in_range f hwf x e he, hhess,
    ⟨_, evaluate_sparse_eq f x gradient sparse fresh hreg, rfl, hhess⟩,
    ⟨_, create_sparse_hessian_eq f H hreg, fun e he => pattern_entry_in_range f hwf e he⟩, ?_⟩
  intro itr hitr i hi
  have hbelow := hwf.ranges_below itr hitr
  have : i < itr.2.dimension.toNat := by omega
  omega

/-- C19, at the scenario: the gradient indices are 0, 1, 2 and every triplet
position is inside `3 x 3`. -/
theorem scatter_indices_in_range_witness :
    ((scenario : Function Int).after_map scenario_x).gradient_entries.map (fun e => e.1)
      = [0, 1, 2] ∧
    (∀ e ∈ ((scenario : Function Int).after_map scenario_x).hessian_entries,
      e.row < 3 ∧ e.col < 3) :=
  have h := scatter_indices_in_range (scenario : Function Int) scenario_x default default
    ⟨3, 3, []⟩ ⟨0, 0, []⟩ scenario_fresh scenario_reachable
  ⟨rfl, h.2.2.1⟩

/-- C11: in a reachable state every triplet emitted by the sparse evaluation
has its row in the index range of a variable `k0` and its column in the index
range of a variable `k1` that are both arguments of one registered term.
Consequently, for two different terms each of whose arguments is an argument
of no other term, no triplet has its row in the range of an argument of the
one and its column in the range of an argument of the other. -/
theorem sparse_triplets_within_terms [Add S] [Zero S] (f : Function S)
    (x gradient : VectorXd S) (sparse : SparseMatrix S) (fresh : Fresh S) (hf : Reachable f) :
    ∃ r, f.evaluate_sparse x gradient sparse fresh = Except.ok r ∧
      (∀ e ∈ r.hessian.triplets, ∃ t ∈ f.terms,
        ∃ k0 ∈ t.user_variables, ∃ k1 ∈ t.user_variables,
          f.in_range_of k0 e.row ∧ f.in_range_of k1 e.col) ∧
      (∀ t1 ∈ f.terms, ∀ t2 ∈ f.terms, t1 ≠ t2 →
        (∀ t ∈ f.terms, t ≠ t1 → ∀ k ∈ t.user_variables, k ∉ t1.user_variables) →
        (∀ t ∈ f.terms, t ≠ t2 → ∀ k ∈ t.user_variables, k ∉ t2.user_variables) →
        ∀ e ∈ r.hessian.triplets,
          ¬ ((∃ k ∈ t1.user_variables, f.in_range_of k e.row) ∧
             (∃ k ∈ t2.user_variables, f.in_range_of k e.col))) := by
  have hwf := reachable_wellFormed f hf
  have hreg := args_registered_of_wellFormed f hwf
  refine ⟨_, evaluate_sparse_eq f x gradient sparse fresh hreg, ?_, ?_⟩
  · intro e he
    obtain ⟨t, ht, k0, hk0, k1, hk1, h0, h1, _, _⟩ := hessian_entry_of_term f hwf x e he
    exact ⟨t, ht, k0, hk0, k1, hk1, h0, h1⟩
  · intro t1 _ t2 _ hne h1 h2 e he
    obtain ⟨t, ht, k0, hk0, k1, hk1, hr, hc, _, _⟩ := hessian_entry_of_term f hwf x e he
    rintro ⟨⟨k, hk, hkr⟩, ⟨k', hk', hkc⟩⟩
    have e0 : k0 = k := range_key_unique f hwf k0 k e.row hr hkr
    have e1 : k1 = k' := range_key_unique f hwf k1 k' e.col hc hkc
    have ht1 : t = t1 := by
      by_contra hn
      exact h1 t ht hn k0 hk0 (e0 ▸ hk)
    have ht2 : t = t2 := by
      by_contra hn
      exact h2 t ht hn k1 hk1 (e1 ▸ hk')
    exact hne (ht1.symm.trans ht2)

/-- C11, at two terms over disjoint variables: one term over `a` (rows and
columns 0, 1) and one over `b` (row and column 2); the sparse evaluation emits
the four positions of the first block and the one of the second, and no
position between the blocks. -/
theorem sparse_triplets_within_terms_witness :
    ∃ r, (scenario_disjoint : Function Int).evaluate_sparse scenario_x default ⟨3, 3, []⟩
        scenario_fresh = Except.ok r ∧
      r.hessian.triplets.map (fun e => (e.row, e.col)) = [(0, 0), (0, 1), (1, 0), (1, 1), (2, 2)] ∧
      (∀ e ∈ r.hessian.triplets, ∃ t ∈ (scenario_disjoint : Function Int).terms,
        ∃ k0 ∈ t.user_variables, ∃ k1 ∈ t.user_variables,
          (scenario_disjoint : Function Int).in_range_of k0 e.row ∧
          (scenario_disjoint : Function Int).in_range_of k1 e.col) := by
  have hreach : Reachable (scenario_disjoint : Function Int) :=
    Reachable.add_term _ _ _ _ (Reachable.add_term _ _ _ _
      (Reachable.add_variable _ _ _ (Reachable.add_variable _ _ _ Reachable.init)))
  obtain ⟨r, hr, h1, _⟩ := sparse_triplets_within_terms (scenario_disjoint : Function Int)
    scenario_x default ⟨3, 3, []⟩ scenario_fresh hreach
  refine ⟨r, hr, ?_, h1⟩
  rw [evaluate_sparse_eq _ _ _ _ _
    (args_registered_of_wellFormed _ (reachable_wellFormed _ hreach))] at hr
  cases hr
  rfl

end IndexProperties

/-! ## The counter of Hessian elements -/

section Counter

variable {S : Type}

theorem length_term_hessian_entries (f : Function S) (t : AddedTerm S)
    (value : Nat → Nat → Nat → Nat → S) :
    (f.term_hessian_entries t value).length = t.term.hessian_size := by
  unfold Function.term_hessian_entries Term.hessian_size
  simp only [List.length_flatMap, Function.comp_def, List.length_map, List.length_range,
    List.map_const', List.sum_replicate, smul_eq_mul]
  simp only [List.sum_map_mul_left]
  rw [List.sum_map_mul_right, sq]

theorem length_hessian_entries [Zero S] (f : Function S) :
    f.hessian_entries.length = (f.terms.map fun t => t.term.hessian_size).sum := by
  unfold Function.hessian_entries
  rw [List.length_flatMap]
  congr 1
  apply List.map_congr_left
  intro t _
  exact length_term_hessian_entries f t _

theorem length_pattern_entries [One S] (f : Function S) :
    f.pattern_entries.length = (f.terms.map fun t => t.term.hessian_size).sum := by
  unfold Function.pattern_entries
  rw [List.length_flatMap]
  congr 1
  apply List.map_congr_left
  intro t _
  exact length_term_hessian_entries f t _

theorem after_map_sizes [Add S] [Zero S] (f : Function S) (x : VectorXd S) :
    ((f.after_map x).terms.map fun t => t.term.hessian_size)
      = f.terms.map fun t => t.term.hessian_size := by
  have h : (f.after_map x).terms
      = f.terms.map fun itr => ((f.copy_global_to_local x).evaluate_term itr).2 := rfl
  rw [h, List.map_map]
  rfl

theorem length_after_map_hessian_entries [Add S] [Zero S] (f : Function S) (x : VectorXd S) :
    (f.after_map x).hessian_entries.length = (f.terms.map fun t => t.term.hessian_size).sum := by
  rw [length_hessian_entries, after_map_sizes]

end Counter

section CounterProperty

variable {S : Type}

/-- C18: in a reachable state, after `create_sparse_hessian`, and likewise after
the sparse evaluation, `number_of_hessian_elements` is the number of triplets
the call emitted, which is the sum over the terms of the square of the sum of
the dimensions of the term's arguments; a second call from the state the first
one left gives the same count, not the double. -/
theorem hessian_element_count [Add S] [Zero S] [One S] (f : Function S)
    (x x' gradient gradient' : VectorXd S) (sparse sparse' H H' : SparseMatrix S)
    (fresh fresh' : Fresh S) (hf : Reachable f) :
    (∃ r, f.create_sparse_hessian H = Except.ok r ∧
      r.2.number_of_hessian_elements = r.1.triplets.length ∧
      r.1.triplets.length = (f.terms.map fun t => t.term.hessian_size).sum ∧
      ∃ r', r.2.create_sparse_hessian H' = Except.ok r' ∧
        r'.2.number_of_hessian_elements = r.2.number_of_hessian_elements) ∧
    (∃ r, f.evaluate_sparse x gradient sparse fresh = Except.ok r ∧
      r.state.number_of_hessian_elements = r.hessian.triplets.length ∧
      r.hessian.triplets.length = (f.terms.map fun t => t.term.hessian_size).sum ∧
      ∃ r', r.state.evaluate_sparse x' gradient' sparse' fresh' = Except.ok r' ∧
        r'.state.number_of_hessian_elements = r.state.number_of_hessian_elements) := by
  have hwf := reachable_wellFormed f hf
  have hreg := args_registered_of_wellFormed f hwf
  constructor
  · have hreg' : args_registered
        { f with number_of_hessian_elements := f.pattern_entries.length } := hreg
    refine ⟨_, create_sparse_hessian_eq f H hreg, rfl, length_pattern_entries f,
      _, create_sparse_hessian_eq _ H' hreg', ?_⟩
    exact (length_pattern_entries _).trans (length_pattern_entries f).symm
  · have hreg1 := args_registered_after_map f x hreg
    have hreg' : args_registered
        { f.after_map x with
          number_of_hessian_elements := (f.after_map x).hessian_entries.length } := hreg1
    have hlen := length_after_map_hessian_entries f x
    refine ⟨_, evaluate_sparse_eq f x gradient sparse fresh hreg, rfl, hlen,
      _, evaluate_sparse_eq _ x' gradient' sparse' fresh' hreg', ?_⟩
    exact (length_after_map_hessian_entries _ x').trans
      ((congrArg List.sum (after_map_sizes f x)).trans hlen.symm)

/-- C18, at the scenario: one term over dimensions 2 and 1 gives
`(2 + 1)^2 = 9` after `create_sparse_hessian`, and 9 again after a second call. -/
theorem hessian_element_count_witness :
    ∃ r, (scenario : Function Int).create_sparse_hessian ⟨0, 0, []⟩ = Except.ok r ∧
      r.2.number_of_hessian_elements = 9 ∧
      ∃ r', r.2.create_sparse_hessian ⟨0, 0, []⟩ = Except.ok r' ∧
        r'.2.number_of_hessian_elements = 9 := by
  obtain ⟨⟨r, hr, h1, h2, r', hr', h3⟩, _⟩ :=
    hessian_element_count (scenario : Function Int) scenario_x scenario_x default default
      ⟨3, 3, []⟩ ⟨3, 3, []⟩ ⟨0, 0, []⟩ ⟨0, 0, []⟩ scenario_fresh scenario_fresh
      scenario_reachable
  have h9 : r.2.number_of_hessian_elements = 9 := by
    rw [h1, h2]; rfl
  exact ⟨r, hr, h9, r', hr', h3.trans h9⟩

end CounterProperty

/-! ## The variables partition the global vector -/

section Partition

variable {S : Type}

theorem map_find_none_keys {α : Type} (m : List (Key × α)) (k : Key)
    (h : map_find m k = none) : ∀ e ∈ m, e.1 ≠ k := by
  induction m with
  | nil => intro e he; cases he
  | cons hd tl ih =>
    obtain ⟨k0, v0⟩ := hd
    simp only [map_find] at h
    by_cases hk : k = k0
    · simp [hk] at h
    · simp only [hk, if_false] at h
      intro e he
      rcases List.mem_cons.mp he with h1 | h1
      · rw [h1]; exact fun h2 => hk h2.symm
      · exact ih h e h1

theorem map_insert_perm {α : Type} (m : List (Key × α)) (k : Key) (v : α)
    (h : map_find m k = none) : (map_insert m k v).Perm ((k, v) :: m) := by
  induction m with
  | nil => exact List.Perm.refl _
  | cons hd tl ih =>
    obtain ⟨k0, v0⟩ := hd
    have hk : k ≠ k0 := fun he => map_find_none_keys _ k h (k0, v0) (List.mem_cons_self _ _) he.symm
    have htl : map_find tl k = none := by
      simp only [map_find, hk, if_false] at h
      exact h
    simp only [map_insert]
    by_cases h1 : k < k0
    · simp only [h1, if_true]
      exact List.Perm.refl _
    · simp only [h1, hk, if_false]
      exact ((ih htl).cons (k0, v0)).trans (List.Perm.swap _ _ _)

theorem map_find_of_mem_nodup {α : Type} (m : List (Key × α))
    (hm : (m.map Prod.fst).Nodup) (k : Key) (v : α) (h : (k, v) ∈ m) :
    map_find m k = some v := by
  induction m with
  | nil => cases h
  | cons hd tl ih =>
    obtain ⟨k0, v0⟩ := hd
    simp only [List.map_cons, List.nodup_cons] at hm
    simp only [map_find]
    rcases List.mem_cons.mp h with h1 | h1
    · cases h1
      simp
    · have hne : k ≠ k0 := by
        intro he
        exact hm.1 (he ▸ List.mem_map_of_mem Prod.fst h1)
      simp only [hne, if_false]
      exact ih hm.2 h1

theorem partitioned_init : Partitioned (Function.init : Function S) := by
  constructor
  · simp [Function.init]
  · intro p hp
    simp [Function.init] at hp

theorem partitioned_insert (f : Function S) (hf : Partitioned f) (key : Key) (dimension : Int)
    (temp_space : List S) (hnew : map_find f.vars key = none) :
    Partitioned { f with
      vars := map_insert f.vars key ⟨dimension, f.number_of_scalars, temp_space⟩
      number_of_scalars := f.number_of_scalars + dimension.toNat } := by
  have hperm := map_insert_perm f.vars key
    (⟨dimension, f.number_of_scalars, temp_space⟩ : AddedVariable S) hnew
  constructor
  · have hp := hperm.map Prod.fst
    rw [hp.nodup_iff, List.map_cons, List.nodup_cons]
    refine ⟨?_, hf.keys_nodup⟩
    intro hmem
    obtain ⟨e, he, hek⟩ := List.mem_map.mp hmem
    exact map_find_none_keys _ key hnew e he hek
  · intro p hp
    by_cases hlt : p < f.number_of_scalars
    · obtain ⟨e, he, h1, h2⟩ := hf.ranges_cover p hlt
      exact ⟨e, hperm.mem_iff.mpr (List.mem_cons_of_mem _ he), h1, h2⟩
    · refine ⟨(key, ⟨dimension, f.number_of_scalars, temp_space⟩),
        hperm.mem_iff.mpr (List.mem_cons_self _ _), ?_, ?_⟩
      · exact Nat.le_of_not_lt hlt
      · exact hp

theorem partitioned_add_variable [Zero S] (f : Function S) (hf : Partitioned f) (key : Key)
    (dimension : Int) : Partitioned (f.add_variable key dimension).state := by
  unfold Function.add_variable
  cases hfind : map_find f.vars key with
  | some info =>
    simp only
    split <;> exact hf
  | none =>
    simp only
    split
    · rename_i hneg
      have h0 : dimension.toNat = 0 := Int.toNat_eq_zero.mpr (le_of_lt hneg)
      have := partitioned_insert f hf key dimension [] hfind
      simpa [h0] using this
    · exact partitioned_insert f hf key dimension _ hfind

theorem partitioned_add_term (f : Function S) (hf : Partitioned f) (term : Term S)
    (arguments : List Key) (fresh : Fresh S) :
    Partitioned (f.add_term term arguments fresh).state := by
  have hvars : (f.add_term term arguments fresh).state.vars = f.vars ∧
      (f.add_term term arguments fresh).state.number_of_scalars = f.number_of_scalars := by
    unfold Function.add_term
    split
    · exact ⟨rfl, rfl⟩
    · split <;> exact ⟨rfl, rfl⟩
  constructor
  · rw [hvars.1]; exact hf.keys_nodup
  · rw [hvars.1, hvars.2]; exact hf.ranges_cover

theorem reachable_partitioned [Zero S] (f : Function S) (h : Reachable f) : Partitioned f := by
  induction h with
  | init => exact partitioned_init
  | add_variable f key dimension _ ih => exact partitioned_add_variable f ih key dimension
  | add_term f term arguments fresh _ ih => exact partitioned_add_term f ih term arguments fresh

end Partition

/-! ## Packing and unpacking the live blocks -/

section Packing

variable {S : Type}

theorem copy_blocks_size (user : Nat → S) (l : List (Key × AddedVariable S)) (x : VectorXd S) :
    (l.foldl
      (fun x itr =>
        (List.range itr.2.dimension.toNat).foldl
          (fun x i => x.assign (itr.2.global_index + i) (user (itr.1 + i))) x) x).size
      = x.size := by
  induction l generalizing x with
  | nil => rfl
  | cons hd tl ih =>
    rw [List.foldl_cons, ih]
    generalize hd.2.dimension.toNat = d
    induction d with
    | zero => rfl
    | succ d ihd => rw [List.range_succ, List.foldl_append]; exact ihd

theorem resize_size (x : VectorXd S) (n : Nat) (fresh : Nat → S) : (x.resize n fresh).size = n := by
  unfold VectorXd.resize
  split
  · assumption
  · rfl

theorem copy_user_to_global_size (f : Function S) (user : Nat → S) (x : VectorXd S)
    (fresh : Fresh S) : (f.copy_user_to_global user x fresh).size = f.number_of_scalars := by
  unfold Function.copy_user_to_global
  rw [copy_blocks_size, resize_size]

theorem copy_user_to_global_coeff (f : Function S) (hf : WellFormed f) (user : Nat → S)
    (x : VectorXd S) (fresh : Fresh S) (e : Key × AddedVariable S) (he : e ∈ f.vars) (i : Nat)
    (hi : i < e.2.dimension.toNat) :
    (f.copy_user_to_global user x fresh).coeff (e.2.global_index + i) = user (e.1 + i) :=
  copy_blocks_coeff_inside user f.vars hf.ranges_disjoint _ e he i hi

theorem in_block (k i d : Nat) (hi : i < d) : k ≤ k + i ∧ k + i < k + d := by
  omega

theorem not_in_other_block (k i d k' d' : Nat) (hi : i < d)
    (h : k + d ≤ k' ∨ k' + d' ≤ k) : ¬ (k' ≤ k + i ∧ k + i < k' + d') := by
  omega

theorem block_component (k b d : Nat) (hb : k ≤ b ∧ b < k + d) : b - k < d ∧ k + (b - k) = b := by
  omega

theorem user_range_write (x : VectorXd S) (k gi d : Nat) (user : Nat → S) (a : Nat) :
    ((List.range d).foldl
      (fun (user : Nat → S) i => fun a => if a = k + i then x.coeff (gi + i) else user a)
      user) a
      = if k ≤ a ∧ a < k + d then x.coeff (gi + (a - k)) else user a := by
  induction d with
  | zero =>
    have h0 : ¬ (k ≤ a ∧ a < k + 0) := by omega
    rw [if_neg h0]
    rfl
  | succ d ih =>
    rw [List.range_succ, List.foldl_append, List.foldl_cons, List.foldl_nil]
    show (if a = k + d then x.coeff (gi + d) else _) = _
    rw [ih]
    by_cases ha : a = k + d
    · have h1 : k ≤ a ∧ a < k + (d + 1) := by omega
      have h2 : a - k = d := by omega
      rw [if_pos ha, if_pos h1, h2]
    · rw [if_neg ha]
      by_cases h1 : k ≤ a ∧ a < k + d
      · have h2 : k ≤ a ∧ a < k + (d + 1) := by omega
        rw [if_pos h1, if_pos h2]
      · have h2 : ¬ (k ≤ a ∧ a < k + (d + 1)) := by omega
        rw [if_neg h1, if_neg h2]

theorem copy_to_user_outside (x : VectorXd S) (l : List (Key × AddedVariable S))
    (user : Nat → S) (a : Nat)
    (h : ∀ e ∈ l, ¬ (e.1 ≤ a ∧ a < e.1 + e.2.dimension.toNat)) :
    (l.foldl
      (fun (user : Nat → S) itr =>
        (List.range itr.2.dimension.toNat).foldl
          (fun (user : Nat → S) i => fun a =>
            if a = itr.1 + i then x.coeff (itr.2.global_index + i) else user a) user)
      user) a = user a := by
  induction l generalizing user with
  | nil => rfl
  | cons hd tl ih =>
    rw [List.foldl_cons, ih _ (fun e he => h e (List.mem_cons_of_mem _ he)), user_range_write,
      if_neg (h hd (List.mem_cons_self _ _))]

theorem copy_to_user_inside (x : VectorXd S) (l : List (Key × AddedVariable S))
    (hl : l.Pairwise blocks_apart) (user : Nat → S) (e : Key × AddedVariable S) (he : e ∈ l)
    (i : Nat) (hi : i < e.2.dimension.toNat) :
    (l.foldl
      (fun (user : Nat → S) itr =>
        (List.range itr.2.dimension.toNat).foldl
          (fun (user : Nat → S) i => fun a =>
            if a = itr.1 + i then x.coeff (itr.2.global_index + i) else user a) user)
      user) (e.1 + i) = x.coeff (e.2.global_index + i) := by
  induction l generalizing user with
  | nil => cases he
  | cons hd tl ih =>
    rw [List.pairwise_cons] at hl
    obtain ⟨hhd, htl⟩ := hl
    rw [List.foldl_cons]
    rcases List.mem_cons.mp he with h | h
    · subst h
      rw [copy_to_user_outside, user_range_write]
      · rw [if_pos (in_block e.1 i _ hi), Nat.add_sub_cancel_left]
      · intro e' he'
        exact not_in_other_block e.1 i _ e'.1 _ hi (hhd e' he')
    · exact ih htl _ h

theorem copy_to_user_same (x : VectorXd S) (user : Nat → S) (l : List (Key × AddedVariable S))
    (h : ∀ e ∈ l, ∀ i, i < e.2.dimension.toNat →
      x.coeff (e.2.global_index + i) = user (e.1 + i))
    (cur : Nat → S) (hcur : ∀ a, cur a = user a) (a : Nat) :
    (l.foldl
      (fun (user : Nat → S) itr =>
        (List.range itr.2.dimension.toNat).foldl
          (fun (user : Nat → S) i => fun a =>
            if a = itr.1 + i then x.coeff (itr.2.global_index + i) else user a) user)
      cur) a = user a := by
  induction l generalizing cur with
  | nil => exact hcur a
  | cons hd tl ih =>
    rw [List.foldl_cons]
    apply ih (fun e he => h e (List.mem_cons_of_mem _ he))
    intro b
    rw [user_range_write]
    by_cases hb : hd.1 ≤ b ∧ b < hd.1 + hd.2.dimension.toNat
    · have hc := block_component hd.1 b _ hb
      rw [if_pos hb, h hd (List.mem_cons_self _ _) (b - hd.1) hc.1, hc.2]
    · rw [if_neg hb]
      exact hcur b

theorem pairwise_blocks_apart (f : Function S) (hf : Partitioned f)
    (h : f.live_blocks_apart) : f.vars.Pairwise blocks_apart := by
  apply (List.Nodup.of_map Prod.fst hf.keys_nodup).pairwise_of_forall_ne
  intro a ha b hb hab
  have hne : a.1 ≠ b.1 := fun he => hab (List.inj_on_of_nodup_map hf.keys_nodup ha hb he)
  exact h a.1 b.1 a.2 b.2 (map_find_of_mem_nodup _ hf.keys_nodup a.1 a.2 ha)
    (map_find_of_mem_nodup _ hf.keys_nodup b.1 b.2 hb) hne

/-- C12: in a reachable state, whatever the live blocks contain,
`copy_user_to_global` produces a vector of length `number_of_scalars` whose
entry `global_index(k) + i` is component `i` of the live block of `k`, for every
registered key `k` and `i < dimension(k)`; and every entry of the vector is such
a component, so the vector is the live blocks laid out by offset, that is in
registration order, whatever the iteration order of the map. -/
theorem copy_user_to_global_entries [Zero S] (f : Function S) (user : Nat → S)
    (x : VectorXd S) (fresh : Fresh S) (hf : Reachable f) :
    (f.copy_user_to_global user x fresh).size = f.number_of_scalars ∧
    (∀ k info, map_find f.vars k = some info → ∀ i : Nat, (i : Int) < info.dimension →
      f.global_index k = Except.ok info.global_index ∧
      (f.copy_user_to_global user x fresh).coeff (info.global_index + i) = user (k + i)) ∧
    (∀ p, p < f.number_of_scalars → ∃ (k : Key) (info : AddedVariable S) (i : Nat),
      map_find f.vars k = some info ∧
      (i : Int) < info.dimension ∧ p = info.global_index + i ∧
      (f.copy_user_to_global user x fresh).coeff p = user (k + i)) := by
  have hwf := reachable_wellFormed f hf
  have hpart := reachable_partitioned f hf
  refine ⟨copy_user_to_global_size f user x fresh, ?_, ?_⟩
  · intro k info hfind i hi
    refine ⟨by simp only [Function.global_index, hfind], ?_⟩
    exact copy_user_to_global_coeff f hwf user x fresh (k, info) (map_find_mem _ _ _ hfind) i
      (by simp only; omega)
  · intro p hp
    obtain ⟨e, he, hlo, hhi⟩ := hpart.ranges_cover p hp
    refine ⟨e.1, e.2, p - e.2.global_index,
      map_find_of_mem_nodup _ hpart.keys_nodup e.1 e.2 he, by omega, by omega, ?_⟩
    have := copy_user_to_global_coeff f hwf user x fresh e he (p - e.2.global_index) (by omega)
    rwa [Nat.add_sub_cancel' hlo] at this

/-- C12, with `b = [3]` (address 20) registered before `a = [1, 2]` (address
10): the map iterates `a` first, and the vector is `[3, 1, 2]`, the blocks in
registration order. -/
theorem copy_user_to_global_entries_witness :
    ((scenario_reversed : Function Int).copy_user_to_global scenario_user default
      scenario_fresh).size = 3 ∧
    (scenario_reversed : Function Int).vars.map Prod.fst = [10, 20] ∧
    (List.range 3).map ((scenario_reversed : Function Int).copy_user_to_global scenario_user
      default scenario_fresh).coeff = [3, 1, 2] :=
  have h := copy_user_to_global_entries (scenario_reversed : Function Int) scenario_user default
    scenario_fresh (Reachable.add_variable _ _ _ (Reachable.add_variable _ _ _ Reachable.init))
  ⟨h.1, rfl, rfl⟩

/-- C13: in a reachable state whose live blocks are pairwise non-overlapping,
for `x` of length `number_of_scalars`, `copy_global_to_user(x)` followed by
`copy_user_to_global` returns a vector of the length of `x` with the entries of
`x`; and `copy_user_to_global` followed by `copy_global_to_user` of the result
leaves the callers' memory, hence every live block, unchanged. -/
theorem copy_round_trip [Zero S] (f : Function S) (user : Nat → S) (x y : VectorXd S)
    (fresh : Fresh S) (hf : Reachable f) (hx : x.size = f.number_of_scalars)
    (hblocks : f.live_blocks_apart) :
    ((f.copy_user_to_global (f.copy_global_to_user x user) y fresh).size = x.size ∧
     ∀ p, p < f.number_of_scalars →
      (f.copy_user_to_global (f.copy_global_to_user x user) y fresh).coeff p = x.coeff p) ∧
    (∀ a, f.copy_global_to_user (f.copy_user_to_global user y fresh) user a = user a) := by
  have hwf := reachable_wellFormed f hf
  have hpart := reachable_partitioned f hf
  refine ⟨⟨by rw [copy_user_to_global_size, hx], ?_⟩, ?_⟩
  · intro p hp
    obtain ⟨e, he, hlo, hhi⟩ := hpart.ranges_cover p hp
    have h1 := copy_user_to_global_coeff f hwf (f.copy_global_to_user x user) y fresh e he
      (p - e.2.global_index) (by omega)
    have h2 := copy_to_user_inside x f.vars (pairwise_blocks_apart f hpart hblocks) user e he
      (p - e.2.global_index) (by omega)
    rw [Nat.add_sub_cancel' hlo] at h1 h2
    rw [h1]
    exact h2
  · intro a
    exact copy_to_user_same _ user f.vars
      (fun e he i hi => copy_user_to_global_coeff f hwf user y fresh e he i hi) user
      (fun _ => rfl) a

/-- C13, at the scenario: unpacking `x = [1, 2, 3]` into the callers' memory
and packing again gives `[1, 2, 3]`. -/
theorem copy_round_trip_witness :
    (List.range 3).map ((scenario : Function Int).copy_user_to_global
      ((scenario : Function Int).copy_global_to_user scenario_x (fun _ => 0)) default
      scenario_fresh).coeff = [1, 2, 3] ∧
    (∀ a, (scenario : Function Int).copy_global_to_user
      ((scenario : Function Int).copy_user_to_global scenario_user default scenario_fresh)
      scenario_user a = scenario_user a) :=
  have h := copy_round_trip (scenario : Function Int) scenario_user scenario_x default
    scenario_fresh scenario_reachable rfl
    (by
      intro k k' info info' hk hk' hne
      have hmem := map_find_mem _ _ _ hk
      have hmem' := map_find_mem _ _ _ hk'
      have hvars : (scenario : Function Int).vars
          = [(10, ⟨2, 0, [0, 0]⟩), (20, ⟨1, 2, [0]⟩)] := rfl
      rw [hvars] at hmem hmem'
      simp only [List.mem_cons, Prod.mk.injEq, List.mem_singleton, List.not_mem_nil,
        or_false] at hmem hmem'
      rcases hmem with ⟨rfl, rfl⟩ | ⟨rfl, rfl⟩ <;> rcases hmem' with ⟨rfl, rfl⟩ | ⟨rfl, rfl⟩ <;>
        simp at hne ⊢)
  ⟨rfl, h.2⟩

end Packing

/-! ## Teardown -/

section Teardown

variable {S : Type}

theorem mem_set_insert (s : List Nat) (a x : Nat) : x ∈ set_insert s a ↔ x = a ∨ x ∈ s := by
  induction s with
  | nil => simp [set_insert]
  | cons b rest ih =>
    simp only [set_insert]
    by_cases h1 : a < b
    · simp [h1]
    · by_cases h2 : a = b
      · subst h2
        simp
      · simp only [h1, h2, if_false, List.mem_cons, ih]
        tauto

theorem pairwise_set_insert (s : List Nat) (a : Nat) (hs : s.Pairwise (· < ·)) :
    (set_insert s a).Pairwise (· < ·) := by
  induction s with
  | nil => simp [set_insert]
  | cons b rest ih =>
    rw [List.pairwise_cons] at hs
    obtain ⟨hb, hrest⟩ := hs
    simp only [set_insert]
    by_cases h1 : a < b
    · simp only [h1, if_true]
      refine List.pairwise_cons.mpr ⟨?_, List.pairwise_cons.mpr ⟨hb, hrest⟩⟩
      intro x hx
      rcases List.mem_cons.mp hx with h | h
      · rw [h]; exact h1
      · exact lt_trans h1 (hb x h)
    · by_cases h2 : a = b
      · subst h2
        simp only [lt_irrefl, if_false, if_true]
        exact List.pairwise_cons.mpr ⟨hb, hrest⟩
      · simp only [h1, h2, if_false]
        refine List.pairwise_cons.mpr ⟨?_, ih hrest⟩
        intro x hx
        rcases (mem_set_insert rest a x).mp hx with h | h
        · rw [h]; omega
        · exact hb x h

theorem call_added_terms [Zero S] (f : Function S) (c : Call S) :
    (f.call c).state.term_deletion = f.term_deletion ∧
    (f.call c).state.added_terms =
      match f.added_by c with
      | some a => set_insert f.added_terms a
      | none => f.added_terms := by
  cases c with
  | add_variable key dimension =>
    simp only [Function.call, Function.added_by]
    unfold Function.add_variable
    split
    · split <;> exact ⟨rfl, rfl⟩
    · split <;> exact ⟨rfl, rfl⟩
  | add_term term arguments fresh =>
    simp only [Function.added_by, Function.call]
    unfold Function.add_term
    split
    · exact ⟨rfl, by simp⟩
    · split
      · exact ⟨rfl, by simp⟩
      · exact ⟨rfl, by simp⟩

theorem run_added_terms [Zero S] (calls : List (Call S)) :
    ∀ f : Function S, f.added_terms.Pairwise (· < ·) →
      (run f calls).term_deletion = f.term_deletion ∧
      (run f calls).added_terms.Pairwise (· < ·) ∧
      ∀ a, a ∈ (run f calls).added_terms ↔ a ∈ f.added_terms ∨ a ∈ added_addresses f calls := by
  induction calls with
  | nil =>
    intro f hf
    simp [run, added_addresses, hf]
  | cons c rest ih =>
    intro f hf
    obtain ⟨hpol, hadd⟩ := call_added_terms f c
    have hsorted : (f.call c).state.added_terms.Pairwise (· < ·) := by
      rw [hadd]
      cases f.added_by c with
      | none => exact hf
      | some a => exact pairwise_set_insert _ a hf
    obtain ⟨h1, h2, h3⟩ := ih (f.call c).state hsorted
    refine ⟨by simp only [run]; rw [h1, hpol], h2, ?_⟩
    intro a
    simp only [run, added_addresses, List.mem_append]
    rw [h3 a, hadd]
    cases f.added_by c with
    | none => simp
    | some b =>
      simp only [mem_set_insert, Option.toList_some, List.mem_singleton]
      tauto

/-- C17: for every sequence of calls on a fresh `Function` (deleting policy),
teardown deletes the term of every `add_term` call that returned normally
exactly once, however often it was added, and deletes no term that no
successful `add_term` call added. -/
theorem teardown_deletes_added_terms_once [Zero S] (calls : List (Call S)) :
    (run (Function.init : Function S) calls).term_deletion = TermDeletion.DeleteTerms ∧
    (∀ a, a ∈ added_addresses (Function.init : Function S) calls →
      (run (Function.init : Function S) calls).deleted_terms.count a = 1) ∧
    (∀ a, a ∉ added_addresses (Function.init : Function S) calls →
      (run (Function.init : Function S) calls).deleted_terms.count a = 0) := by
  obtain ⟨h1, h2, h3⟩ := run_added_terms calls (Function.init : Function S)
    (by simp [Function.init])
  have hnodup : (run (Function.init : Function S) calls).added_terms.Nodup :=
    h2.imp (fun h => ne_of_lt h)
  refine ⟨h1, ?_, ?_⟩
  · intro a ha
    have hmem : a ∈ (run (Function.init : Function S) calls).added_terms :=
      (h3 a).mpr (Or.inr ha)
    exact List.count_eq_one_of_mem hnodup hmem
  · intro a ha
    apply List.count_eq_zero_of_not_mem
    intro hmem
    rcases (h3 a).mp hmem with h | h
    · simp [Function.init] at h
    · exact ha h

/-- C16, at a failing input: the scenario with `term_deletion` set to the
caller-owned value before the term is added; the policy is still the
caller-owned one at teardown, and teardown deletes the term all the same. -/
theorem teardown_ignores_policy :
    (scenario_caller_owned : Function Int).term_deletion = TermDeletion.DoNotDeleteTerms ∧
    (scenario_caller_owned : Function Int).terms.map (fun t => t.term.addr) = [1000] ∧
    (scenario_caller_owned : Function Int).deleted_terms = [1000] :=
  ⟨rfl, rfl, rfl⟩

end Teardown

/-! ## Symmetry of the dense Hessian -/

section Symmetry

variable {S : Type}

/-- C20, at a failing input: the scenario, whose local Hessian grid is
symmetric, with `x = [1, 2, 3]` and a `3 x 3` matrix passed in that holds NaN at
`(0, 1)` and 0 elsewhere.  The dense evaluation returns NaN at `(0, 1)` and 0
at `(1, 0)`. -/
theorem dense_hessian_asymmetric_on_nan :
    ∃ r, (scenario : Function Double).evaluate_dense scenario_x default nan_above_diagonal
        scenario_fresh = Except.ok r ∧
      ((scenario : Function Double).after_map scenario_x).local_hessians_symmetric ∧
      r.hessian.coeff 0 1 = Double.nan ∧
      r.hessian.coeff 1 0 = Double.num 0 :=
  ⟨_, rfl, by unfold Function.local_hessians_symmetric; decide, rfl, rfl⟩

end Symmetry

section ExactSymmetry

variable {S : Type}

theorem sum_filter_map_eq [AddCommMonoid S] (l : List (Triplet S)) (r c : Nat) :
    sum_at_position 0 l r c
      = (l.map fun e => if e.row = r ∧ e.col = c then e.value else 0).sum := by
  unfold sum_at_position
  rw [← List.sum_eq_foldl]
  induction l with
  | nil => rfl
  | cons e tl ih =>
    by_cases he : e.row = r ∧ e.col = c
    · simp only [List.filter_cons, he, and_self, decide_True, if_true, List.map_cons,
        List.sum_cons, ih]
    · simp only [List.filter_cons, he, decide_False, Bool.false_eq_true, if_false,
        List.map_cons, List.sum_cons, ih, zero_add]

theorem sum_map_flatMap [AddCommMonoid S] {α β : Type} (l : List α) (F : α → List β)
    (g : β → S) :
    ((l.flatMap F).map g).sum = (l.map fun a => ((F a).map g).sum).sum := by
  induction l with
  | nil => rfl
  | cons a tl ih => simp [List.flatMap_cons, List.sum_append, ih]

theorem sum_map_range [AddCommMonoid S] (n : Nat) (F : Nat → S) :
    ((List.range n).map F).sum = ∑ k ∈ Finset.range n, F k := by
  induction n with
  | zero => rfl
  | succ n ih =>
    rw [List.range_succ, List.map_append, List.sum_append, ih, Finset.sum_range_succ]
    simp

theorem term_sum_eq [AddCommMonoid S] (f : Function S) (t : AddedTerm S)
    (value : Nat → Nat → Nat → Nat → S) (r c : Nat) :
    ((f.term_hessian_entries t value).map
        fun e => if e.row = r ∧ e.col = c then e.value else 0).sum
      = ∑ var0 ∈ Finset.range t.term.number_of_variables,
          ∑ var1 ∈ Finset.range t.term.number_of_variables,
            ∑ i ∈ Finset.range (t.term.variable_dimension var0),
              ∑ j ∈ Finset.range (t.term.variable_dimension var1),
                if i + f.offset (t.user_variables.getD var0 0) = r ∧
                    j + f.offset (t.user_variables.getD var1 0) = c
                then value var0 var1 i j else 0 := by
  unfold Function.term_hessian_entries
  simp only [sum_map_flatMap, List.map_map, Function.comp_def, sum_map_range]

theorem term_sum_symmetric [AddCommMonoid S] (f : Function S) (t : AddedTerm S)
    (value : Nat → Nat → Nat → Nat → S)
    (hsymm : ∀ var0, var0 < t.term.number_of_variables →
      ∀ var1, var1 < t.term.number_of_variables →
        ∀ i, i < t.term.variable_dimension var0 → ∀ j, j < t.term.variable_dimension var1 →
          value var0 var1 i j = value var1 var0 j i)
    (r c : Nat) :
    ((f.term_hessian_entries t value).map
        fun e => if e.row = r ∧ e.col = c then e.value else 0).sum
      = ((f.term_hessian_entries t value).map
        fun e => if e.row = c ∧ e.col = r then e.value else 0).sum := by
  rw [term_sum_eq, term_sum_eq, Finset.sum_comm]
  apply Finset.sum_congr rfl
  intro a ha
  apply Finset.sum_congr rfl
  intro b hb
  rw [Finset.sum_comm]
  apply Finset.sum_congr rfl
  intro i hi
  apply Finset.sum_congr rfl
  intro j hj
  rw [hsymm b (Finset.mem_range.mp hb) a (Finset.mem_range.mp ha) j (Finset.mem_range.mp hj) i
    (Finset.mem_range.mp hi)]
  by_cases h : i + f.offset (t.user_variables.getD a 0) = c ∧
      j + f.offset (t.user_variables.getD b 0) = r
  · rw [if_pos h, if_pos ⟨h.2, h.1⟩]
  · rw [if_neg h, if_neg (fun h' => h ⟨h'.2, h'.1⟩)]

theorem dense_hessian_symmetric_of_exact [AddCommMonoid S] [Mul S]
    (hzero : ∀ s : S, s * 0 = 0) (f : Function S) (x gradient : VectorXd S)
    (hessian : MatrixXd S) (fresh : Fresh S) (hf : Reachable f)
    (hsymm : (f.after_map x).local_hessians_symmetric) :
    ∃ r, f.evaluate_dense x gradient hessian fresh = Except.ok r ∧
      ∀ row col, r.hessian.coeff row col = r.hessian.coeff col row := by
  obtain ⟨r, hr, _, _, hcoeff⟩ := dense_hessian_eq_sum f x gradient hessian fresh hf
  refine ⟨r, hr, ?_⟩
  intro row col
  rw [hcoeff, hcoeff, hzero, hzero, sum_filter_map_eq, sum_filter_map_eq]
  unfold Function.hessian_entries
  rw [sum_map_flatMap, sum_map_flatMap]
  congr 1
  apply List.map_congr_left
  intro t ht
  exact term_sum_symmetric _ t _ (hsymm t ht) row col

end ExactSymmetry

section TeardownScenario

/-- C17, at the scenario: the term at address 1000 is added twice and deleted
once; the term at address 2000, whose only registration fails, is not
deleted. -/
theorem teardown_deletes_added_terms_once_witness :
    added_addresses (Function.init : Function Int) scenario_calls = [1000, 1000] ∧
    (run (Function.init : Function Int) scenario_calls).deleted_terms = [1000] ∧
    (run (Function.init : Function Int) scenario_calls).deleted_terms.count 1000 = 1 ∧
    (run (Function.init : Function Int) scenario_calls).deleted_terms.count 2000 = 0 :=
  have h := teardown_deletes_added_terms_once (scenario_calls : List (Call Int))
  have hadded : added_addresses (Function.init : Function Int) scenario_calls = [1000, 1000] :=
    rfl
  ⟨hadded, rfl, h.2.1 1000 (by rw [hadded]; decide), h.2.2 2000 (by rw [hadded]; decide)⟩

end TeardownScenario

end Spii
